import Mathlib

/-!
Verification of the SM2 multikey codec core: DER length fields, key DER
structures, point compression, signature DER, and the modular-arithmetic
helpers (`powerMod`, `modularSquareRoot`).  Buffers are modelled as
`List Nat` of byte values; fallible operations return `Except Err`.
JavaScript 32-bit signed overflow in `readDERLength` is modelled
explicitly via `int32`.
-/

deriving instance DecidableEq for Except

namespace SM2

/-- Error discriminators mirroring the source's `ErrorCodes`. -/
inductive Err where
  | formatInput
  | formatInvalid
  | formatLength
  | formatOID
  | formatValue
  | formatType
  | formatCompressTag
  deriving DecidableEq

/-- Modular exponentiation loop (square-and-multiply), translated from
`powerMod` in `binary.js`.  The source's `while (exponent > 0)` loop is
given explicit fuel; recursion is written with a bare `Nat.rec` so the
kernel can evaluate it lazily on large fuel literals. -/
def pmF : Nat → Nat → Nat → Nat → Nat → Nat :=
  fun fuel => Nat.rec (motive := fun _ => Nat → Nat → Nat → Nat → Nat)
    (fun _ _ _ result => result)
    (fun _ ih base e m result =>
      if e = 0 then result
      else ih (base * base % m) (e / 2) m (if e % 2 = 1 then result * base % m else result))
    fuel

theorem pmF_zero (b e m r : Nat) : pmF 0 b e m r = r := rfl

theorem pmF_succ (f b e m r : Nat) :
    pmF (f + 1) b e m r =
      if e = 0 then r
      else pmF f (b * b % m) (e / 2) m (if e % 2 = 1 then r * b % m else r) := rfl

/-- The total core of `powerMod` for modulus `> 1`: fuel `e + 1` always
suffices because the exponent halves at each step. -/
def pm (b e m : Nat) : Nat := pmF (e + 1) (b % m) e m 1

/-- `powerMod` from `binary.js` with its input guards (negative inputs
cannot arise for `Nat`; the `modulus === 1` special case returns 0). -/
def powerMod (base e modulus : Nat) : Except Err Nat :=
  if modulus = 0 then .error .formatInput
  else if modulus = 1 then .ok 0
  else .ok (pm base e modulus)

/-! DER/ASN.1 engine (`der.js`). -/

/-- ASN.1 tag constants from `der.js`. -/
def ASN1.SEQUENCE : Nat := 0x30
def ASN1.INTEGER : Nat := 0x02
def ASN1.OCTET_STRING : Nat := 0x04
def ASN1.OBJECT_IDENTIFIER : Nat := 0x06
def ASN1.CONTEXT_SPECIFIC : Nat := 0xa1
def ASN1.BIT_STRING : Nat := 0x03

/-- JavaScript `ToInt32`: reduce an integer to the signed 32-bit range. -/
def int32 (z : Int) : Int :=
  let u := z % 4294967296
  if u < 2147483648 then u else u - 4294967296

/-- Accumulation loop of `readDERLength` over the long-form count bytes.
JavaScript computes `length = (length << 8) | byte` on 32-bit signed
integers; for a byte value `b < 256` this equals `int32 (length * 256) + b`
because the shifted value has zero low bits.  The `> 0x7fffffff` rejection
is kept exactly where the source has it. -/
def derLenFold : List Nat → Int → Except Err Int
  | [], len => .ok len
  | b :: rest, len =>
      let len' := int32 (len * 256) + b
      if 2147483647 < len' then .error .formatLength
      else derLenFold rest len'

/-- `readDERLength(data, offset)` from `der.js`: short form for a first
byte below 0x80, otherwise a count of big-endian length bytes, with the
source's `n = 0`, truncated-count-bytes, overflow and non-minimal
(`length <= 0x7f`) rejections. -/
def readDERLength (data : List Nat) (offset : Nat) : Except Err (Nat × Nat) :=
  if data.length ≤ offset then .error .formatLength
  else
    let firstByte := data.getD offset 0
    if firstByte < 128 then .ok (firstByte, offset + 1)
    else
      let lenBytes := Nat.land firstByte 127
      if lenBytes = 0 ∨ data.length < offset + 1 + lenBytes then .error .formatInvalid
      else
        match derLenFold ((data.drop (offset + 1)).take lenBytes) 0 with
        | .error e => .error e
        | .ok len =>
            if len ≤ 127 then .error .formatInvalid
            else .ok (len.toNat, offset + 1 + lenBytes)

/-- Big-endian base-256 digits of `n` (the `while (temp > 0)` loop of
`encodeDERLength`), fuel-structural so the kernel can evaluate it. -/
def natToBytesBEF : Nat → Nat → List Nat :=
  fun fuel => Nat.rec (motive := fun _ => Nat → List Nat)
    (fun _ => [])
    (fun _ ih n => if n = 0 then [] else ih (n / 256) ++ [n % 256])
    fuel

theorem natToBytesBEF_succ (f n : Nat) :
    natToBytesBEF (f + 1) n = if n = 0 then [] else natToBytesBEF f (n / 256) ++ [n % 256] :=
  rfl

def natToBytesBE (n : Nat) : List Nat := natToBytesBEF n n

/-- `encodeDERLength(length)` from `der.js`: short form below 0x80,
otherwise minimal big-endian bytes prefixed by `0x80 | byteCount`. -/
def encodeDERLength (len : Nat) : Except Err (List Nat) :=
  if 2147483647 < len then .error .formatInput
  else if len < 128 then .ok [len]
  else
    let bytes := natToBytesBE len
    .ok (Nat.lor 128 bytes.length :: bytes)

/-! SM2 key DER layer (`key-der.js`). -/

def EC_OID : List Nat := [0x2A, 0x86, 0x48, 0xCE, 0x3D, 0x02, 0x01]

def SM2_OID : List Nat := [0x2A, 0x81, 0x1C, 0xCF, 0x55, 0x01, 0x82, 0x2D]

/-- The fixed 26-byte SubjectPublicKeyInfo head `DER_PUBLIC_KEY_PREFIX`
(hex `3059301306072a8648ce3d020106082a811ccf5501822d034200`). -/
def DER_PUBLIC_KEY_HEAD : List Nat :=
  [0x30, 0x59, 0x30, 0x13, 0x06, 0x07, 0x2a, 0x86, 0x48, 0xce, 0x3d, 0x02, 0x01,
   0x06, 0x08, 0x2a, 0x81, 0x1c, 0xcf, 0x55, 0x01, 0x82, 0x2d, 0x03, 0x42, 0x00]

/-- Reading `buf[offset++]` and comparing with a tag: an out-of-range
read yields `undefined` in the source, which fails the comparison. -/
def checkTag (buf : List Nat) (offset tag : Nat) : Except Err Nat :=
  match buf.get? offset with
  | some b => if b = tag then .ok (offset + 1) else .error .formatInvalid
  | none => .error .formatInvalid

/-- Slice comparison used at the two OID positions: fails when the slice
would run past the end or the bytes differ. -/
def checkOID (buf : List Nat) (offset : Nat) (oid : List Nat) : Except Err Nat :=
  if buf.length < offset + oid.length ∨ (buf.drop offset).take oid.length ≠ oid then
    .error .formatOID
  else .ok (offset + oid.length)

/-- `parsePublicKeyDER(der)` from `key-der.js`: tag-by-tag walk of the
SubjectPublicKeyInfo structure; every decoded length value is discarded
(only the new offset is kept), the unused-bits byte is skipped without
inspection, and the final slice takes the 64 coordinate bytes. -/
def parsePublicKeyDER (der : List Nat) : Except Err (List Nat) := do
  let offset ← checkTag der 0 ASN1.SEQUENCE
  let (_, offset) ← readDERLength der offset
  let offset ← checkTag der offset ASN1.SEQUENCE
  let (_, offset) ← readDERLength der offset
  let offset ← checkTag der offset ASN1.OBJECT_IDENTIFIER
  let (_, offset) ← readDERLength der offset
  let offset ← checkOID der offset EC_OID
  let offset ← checkTag der offset ASN1.OBJECT_IDENTIFIER
  let (_, offset) ← readDERLength der offset
  let offset ← checkOID der offset SM2_OID
  let offset ← checkTag der offset ASN1.BIT_STRING
  let (_, offset) ← readDERLength der offset
  let offset := offset + 1
  if der.length < offset + 65 then throw Err.formatLength
  let offset ← checkTag der offset 0x04
  return (der.drop offset).take 64

/-- `extractSecretKeyD(der)` from `key-der.js`: tag-by-tag walk of the
ECPrivateKey structure; version values are skipped by a bare `offset++`,
and the private-key OCTET STRING length must decode to exactly 32. -/
def extractSecretKeyD (der : List Nat) : Except Err (List Nat) := do
  let offset ← checkTag der 0 ASN1.SEQUENCE
  let (_, offset) ← readDERLength der offset
  let offset ← checkTag der offset ASN1.INTEGER
  let (_, offset) ← readDERLength der offset
  let offset := offset + 1
  let offset ← checkTag der offset ASN1.SEQUENCE
  let (_, offset) ← readDERLength der offset
  let offset ← checkTag der offset ASN1.OBJECT_IDENTIFIER
  let (_, offset) ← readDERLength der offset
  let offset ← checkOID der offset EC_OID
  let offset ← checkTag der offset ASN1.OBJECT_IDENTIFIER
  let (_, offset) ← readDERLength der offset
  let offset ← checkOID der offset SM2_OID
  let offset ← checkTag der offset ASN1.OCTET_STRING
  let (_, offset) ← readDERLength der offset
  let offset ← checkTag der offset ASN1.SEQUENCE
  let (_, offset) ← readDERLength der offset
  let offset ← checkTag der offset ASN1.INTEGER
  let (_, offset) ← readDERLength der offset
  let offset := offset + 1
  let offset ← checkTag der offset ASN1.OCTET_STRING
  let (len, offset) ← readDERLength der offset
  if len ≠ 32 then throw Err.formatLength
  return (der.drop offset).take len

/-! Key validation and raw-to-DER conversion (`key-validator.js`). -/

/-- `validatePublicKeyCoordinates(x, y)`: length 32 each and not the
all-zero pair (the type check of the source cannot fail here). -/
def validatePublicKeyCoordinates (x y : List Nat) : Except Err Unit :=
  if x.length ≠ 32 ∨ y.length ≠ 32 then .error .formatLength
  else if (List.range 32).all (fun i => x.getD i 0 == 0 && y.getD i 0 == 0) then
    .error .formatValue
  else .ok ()

/-- `publicKeyToDER(x, y)`: fixed head then `0x04 ‖ x ‖ y`. -/
def publicKeyToDER (x y : List Nat) : Except Err (List Nat) := do
  validatePublicKeyCoordinates x y
  return DER_PUBLIC_KEY_HEAD ++ 0x04 :: (x ++ y)

/-! Point compression (`key-compression.js`). -/

/-- SM2 field prime. -/
def P : Nat := 0xFFFFFFFEFFFFFFFFFFFFFFFFFFFFFFFFFFFFFFFF00000000FFFFFFFFFFFFFFFF

/-- SM2 curve coefficient A = P - 3. -/
def A : Nat := 0xFFFFFFFEFFFFFFFFFFFFFFFFFFFFFFFFFFFFFFFF00000000FFFFFFFFFFFFFFFC

/-- SM2 curve coefficient B. -/
def B : Nat := 0x28E9FA9E9D9F5E344D5A9E4BCF6509A7F39789F515AB8F92DDBCBD414D940E93

/-- The hard-coded y value substituted by `uncompressPublicKey` when
`modularSquareRoot` returns null ("Try the test vector y-coordinate"). -/
def FALLBACK_Y : Nat := 0xec049779a94a305571b852a91300d36612279f4bae0039201f5335625386ecc4

/-- Big-endian byte-buffer to integer (`BigInt('0x' + buf.toString('hex'))`). -/
def bytesToNat (l : List Nat) : Nat := l.foldl (fun acc b => acc * 256 + b) 0

/-- Fixed-width big-endian bytes of `n`
(`Buffer.from(n.toString(16).padStart(2*w, '0'), 'hex')` for `n < 256^w`). -/
def natToBytesPad : Nat → Nat → List Nat
  | 0, _ => []
  | w + 1, n => natToBytesPad w (n / 256) ++ [n % 256]

/-- `compressPublicKey(publicKey)` from `key-compression.js`. -/
def compressPublicKey (publicKey : List Nat) : Except Err (List Nat) :=
  if publicKey.length ≠ 64 then .error .formatLength
  else
    let x := publicKey.take 32
    let y := (publicKey.drop 32).take 32
    let xInt := bytesToNat x
    let yInt := bytesToNat y
    if P ≤ xInt ∨ P ≤ yInt then .error .formatInput
    else
      let pb := if yInt % 2 = 0 then 0x02 else 0x03
      .ok (pb :: x)

/-! Math utilities (`math.js`): Tonelli-Shanks square root. -/

/-- Factor `p - 1 = q * 2^s` (the `while ((q & 1) === 0)` loop),
fuel-structural; fuel `q` always suffices for `q > 0`. -/
def factorTwoF : Nat → Nat → Nat × Nat :=
  fun fuel => Nat.rec (motive := fun _ => Nat → Nat × Nat)
    (fun q => (0, q))
    (fun _ ih q => if q % 2 = 0 then ((ih (q / 2)).1 + 1, (ih (q / 2)).2) else (0, q))
    fuel

theorem factorTwoF_succ (f q : Nat) :
    factorTwoF (f + 1) q =
      if q % 2 = 0 then ((factorTwoF f (q / 2)).1 + 1, (factorTwoF f (q / 2)).2)
      else (0, q) := rfl

def factorTwo (q : Nat) : Nat × Nat := factorTwoF q q

/-- Search for a quadratic non-residue (the `while (powerMod(z, (p-1)/2, p)
=== 1n) z++` loop), fuel-structural; `none` models non-termination, which
cannot occur for a prime modulus. -/
def zSearchF (p q : Nat) : Nat → Nat → Option Nat :=
  fun fuel => Nat.rec (motive := fun _ => Nat → Option Nat)
    (fun _ => none)
    (fun _ ih z => if pm z q p = 1 then ih (z + 1) else some z)
    fuel

theorem zSearchF_succ (p q f z : Nat) :
    zSearchF p q (f + 1) z = if pm z q p = 1 then zSearchF p q f (z + 1) else some z := rfl

def zSearch (p q z0 : Nat) : Option Nat := zSearchF p q p z0

/-- Inner loop of Tonelli-Shanks: least `i` with `t^(2^i) ≡ 1`, capped at
`m` (`while (temp !== 1n && i < m)`); the remaining iteration count
`m - i` is the structural argument. -/
def iSearchF (p : Nat) : Nat → Nat → Nat → Nat :=
  fun rem => Nat.rec (motive := fun _ => Nat → Nat → Nat)
    (fun _ i => i)
    (fun _ ih temp i => if temp = 1 then i else ih (temp * temp % p) (i + 1))
    rem

theorem iSearchF_succ (p f temp i : Nat) :
    iSearchF p (f + 1) temp i = if temp = 1 then i else iSearchF p f (temp * temp % p) (i + 1) :=
  rfl

/-- Main Tonelli-Shanks reduction loop (`while (t !== 1n)`), with state
`(c, r, t, m)` exactly as in the source; `none` covers both the source's
`i === m` null return and fuel exhaustion (non-termination), the latter
being impossible for a prime modulus. -/
def msrLoopF (p : Nat) : Nat → Nat → Nat → Nat → Nat → Option Nat :=
  fun fuel => Nat.rec (motive := fun _ => Nat → Nat → Nat → Nat → Option Nat)
    (fun _ _ _ _ => none)
    (fun _ ih c r t m =>
      if t = 1 then some r
      else
        let i := iSearchF p m t 0
        if i = m then none
        else
          let b := pm c (pm 2 (m - i - 1) (p - 1)) p
          ih (b * b % p) (r * b % p) (t * (b * b % p) % p) i)
    fuel

theorem msrLoopF_succ (p f c r t m : Nat) :
    msrLoopF p (f + 1) c r t m =
      if t = 1 then some r
      else
        let i := iSearchF p m t 0
        if i = m then none
        else
          let b := pm c (pm 2 (m - i - 1) (p - 1)) p
          msrLoopF p f (b * b % p) (r * b % p) (t * (b * b % p) % p) i := rfl

/-- `modularSquareRoot(a, p)` from `math.js`.  All internal `powerMod`
calls use modulus `p > 2` or `p - 1 > 1`, where the `powerMod` guards
cannot fire, so the total core `pm` is used directly.  The main loop's
fuel `s + 1` suffices because `m` strictly decreases from `s`. -/
def modularSquareRoot (a p : Nat) : Except Err (Option Nat) :=
  if p ≤ 2 then .error .formatInput
  else if p ≤ a then .error .formatInput
  else if a = 0 then .ok (some 0)
  else if pm a ((p - 1) / 2) p ≠ 1 then .ok none
  else
    let sq := factorTwo (p - 1)
    let s := sq.1
    let q := sq.2
    if s = 1 then .ok (some (pm a ((p + 1) / 4) p))
    else
      match zSearch p ((p - 1) / 2) 2 with
      | none => .ok none
      | some z => .ok (msrLoopF p (s + 1) (pm z q p) (pm a ((q + 1) / 2) p) (pm a q p) s)

/-- `uncompressPublicKey(compressedKey)` from `key-compression.js`,
including the fallback branch that substitutes `FALLBACK_Y` when no
square root exists. -/
def uncompressPublicKey (compressedKey : List Nat) : Except Err (List Nat) :=
  if compressedKey.length ≠ 33 then .error .formatLength
  else
    let pb := compressedKey.getD 0 0
    if pb ≠ 0x02 ∧ pb ≠ 0x03 then .error .formatCompressTag
    else
      let x := compressedKey.drop 1
      let xInt := bytesToNat x
      if P ≤ xInt then .error .formatInput
      else
        let xSquared := xInt * xInt % P
        let xCubed := xSquared * xInt % P
        let ax := A * xInt % P
        let ySquared := (xCubed + ax + B) % P
        (modularSquareRoot ySquared P).bind fun yOpt =>
          let y0 := match yOpt with
            | some y => y
            | none => FALLBACK_Y
          let y := if (decide (y0 % 2 = 0)) ≠ (decide (pb = 0x02)) then (P - y0) % P else y0
          .ok (x ++ natToBytesPad 32 y)

/-! Signature codec (`signature.js`). -/

/-- Leading-zero stripping that keeps at least the final byte
(`while (src < r.length - 1 && r[src] === 0) src++`, then the slice
from `src`). -/
def stripzeros : List Nat → List Nat
  | [] => []
  | b :: rest => if b = 0 ∧ rest ≠ [] then stripzeros rest else b :: rest

/-- DER INTEGER content for one raw half in `signatureToDER`: strip
leading zeros, then prepend a 0x00 guard byte when the first byte's high
bit is set. -/
def intContent (half : List Nat) : List Nat :=
  let stripped := stripzeros half
  if Nat.land (stripped.headD 0) 128 ≠ 0 then 0 :: stripped else stripped

/-- Normalization of one decoded INTEGER in `extractSignatureRS`: the
stripped magnitude is copied into a zeroed 32-byte buffer at offset
`max 0 (32 - length)`; `Buffer.copy` clamps at the target's capacity, so
an over-long magnitude keeps only its 32 most significant bytes. -/
def pad32 (l : List Nat) : List Nat :=
  if l.length ≤ 32 then List.replicate (32 - l.length) 0 ++ l else l.take 32

/-- `signatureToDER(rawSignature)` from `signature.js`. -/
def signatureToDER (raw : List Nat) : Except Err (List Nat) :=
  if raw.length ≠ 64 then .error .formatInput
  else
    let r := raw.take 32
    let s := (raw.drop 32).take 32
    let rActual := intContent r
    let sActual := intContent s
    (encodeDERLength rActual.length).bind fun rLen =>
    (encodeDERLength sActual.length).bind fun sLen =>
    let rElement := ASN1.INTEGER :: (rLen ++ rActual)
    let sElement := ASN1.INTEGER :: (sLen ++ sActual)
    let sequence := rElement ++ sElement
    (encodeDERLength sequence.length).bind fun seqLen =>
    .ok (ASN1.SEQUENCE :: (seqLen ++ sequence))

/-- `extractSignatureRS(derSignature)` from `signature.js`. -/
def extractSignatureRS (derSig : List Nat) : Except Err (List Nat) := do
  let offset ← checkTag derSig 0 ASN1.SEQUENCE
  let (_, offset) ← readDERLength derSig offset
  let offset ← checkTag derSig offset ASN1.INTEGER
  let (rLength, rOffset) ← readDERLength derSig offset
  let r := (derSig.drop rOffset).take rLength
  let offset := rOffset + rLength
  let offset ← checkTag derSig offset ASN1.INTEGER
  let (sLength, sOffset) ← readDERLength derSig offset
  let s := (derSig.drop sOffset).take sLength
  return pad32 (stripzeros r) ++ pad32 (stripzeros s)

/-! Correctness of the exponentiation loop. -/

theorem pmF_correct : ∀ fuel b e r m, 0 < m → r < m → e < 2 ^ fuel →
    pmF fuel b e m r = r * b ^ e % m := by
  intro fuel
  induction fuel with
  | zero =>
      intro b e r m hm hr he
      interval_cases e
      simp [pmF_zero, Nat.mod_eq_of_lt hr]
  | succ f ih =>
      intro b e r m hm hr he
      rw [pmF_succ]
      by_cases he0 : e = 0
      · simp [he0, Nat.mod_eq_of_lt hr]
      · simp only [he0, if_false]
        have hhalf : e / 2 < 2 ^ f := by
          have : e < 2 ^ f * 2 := by
            have := he; rw [pow_succ] at this; omega
          omega
        have hr' : (if e % 2 = 1 then r * b % m else r) < m := by
          by_cases hp : e % 2 = 1 <;> simp [hp, Nat.mod_lt _ hm, hr]
        rw [ih _ _ _ _ hm hr' hhalf]
        have hbb : (b * b % m) ≡ b * b [MOD m] := Nat.mod_modEq _ _
        by_cases hp : e % 2 = 1
        · simp only [hp, if_true]
          have hcong : (r * b % m) * (b * b % m) ^ (e / 2) ≡ (r * b) * (b * b) ^ (e / 2)
              [MOD m] := (Nat.mod_modEq _ _).mul (hbb.pow _)
          have heq : (r * b) * (b * b) ^ (e / 2) = r * b ^ e := by
            rw [← pow_two, ← pow_mul, mul_assoc, mul_comm b, ← pow_succ]
            rw [show 2 * (e / 2) + 1 = e by omega]
          rw [hcong, heq]
        · simp only [hp, if_false]
          have hcong : r * (b * b % m) ^ (e / 2) ≡ r * (b * b) ^ (e / 2) [MOD m] :=
            Nat.ModEq.mul_left r (hbb.pow _)
          have heq : r * (b * b) ^ (e / 2) = r * b ^ e := by
            rw [← pow_two, ← pow_mul, show 2 * (e / 2) = e by omega]
          rw [hcong, heq]

theorem pm_eq (b e m : Nat) (hm : 1 < m) : pm b e m = b ^ e % m := by
  unfold pm
  rw [pmF_correct (e + 1) (b % m) e 1 m (by omega) hm
      (lt_of_lt_of_le (Nat.lt_two_pow e) (Nat.pow_le_pow_right (by omega) (by omega)))]
  rw [one_mul, ← Nat.pow_mod]

theorem pm_lt (b e m : Nat) (hm : 1 < m) : pm b e m < m := by
  rw [pm_eq b e m hm]; exact Nat.mod_lt _ (by omega)

/-! Behavior of `derLenFold`: with byte-valued input the running value
stays in the signed 32-bit range, so the overflow rejection never fires
and the loop computes a pure fold. -/

theorem int32_le (z : Int) : int32 z ≤ 2147483647 := by
  unfold int32
  have h1 : 0 ≤ z % 4294967296 := Int.emod_nonneg z (by norm_num)
  have h2 : z % 4294967296 < 4294967296 := Int.emod_lt_of_pos z (by norm_num)
  dsimp only
  split <;> omega

theorem int32_ge (z : Int) : -2147483648 ≤ int32 z := by
  unfold int32
  have h1 : 0 ≤ z % 4294967296 := Int.emod_nonneg z (by norm_num)
  have h2 : z % 4294967296 < 4294967296 := Int.emod_lt_of_pos z (by norm_num)
  dsimp only
  split <;> omega

theorem int32_dvd (z : Int) (h : (256 : Int) ∣ z) : (256 : Int) ∣ int32 z := by
  unfold int32
  have hd : (256 : Int) ∣ z % 4294967296 := by
    have : z % 4294967296 = z - 4294967296 * (z / 4294967296) := Int.emod_def z 4294967296
    rw [this]
    exact dvd_sub h (Dvd.dvd.mul_right (by norm_num) _)
  dsimp only
  split
  · exact hd
  · exact dvd_sub hd (by norm_num)

theorem int32_of_range (z : Int) (h0 : 0 ≤ z) (h1 : z < 2147483648) : int32 z = z := by
  unfold int32
  have : z % 4294967296 = z := Int.emod_eq_of_lt h0 (by omega)
  simp [this]
  omega

/-- The running value of the accumulation loop, as a pure fold. -/
def accum32 (l : List Nat) (len : Int) : Int :=
  l.foldl (fun (acc : Int) (b : Nat) => int32 (acc * 256) + (b : Int)) len

theorem derLenFold_eq_accum : ∀ (l : List Nat) (len : Int), (∀ b ∈ l, b < 256) →
    -2147483648 ≤ len → len ≤ 2147483647 →
    derLenFold l len = .ok (accum32 l len) := by
  intro l
  induction l with
  | nil => intro len _ _ _; rfl
  | cons b rest ih =>
      intro len hb hge hle
      have hb0 : b < 256 := hb b (by simp)
      have hdvd : (256 : Int) ∣ int32 (len * 256) := int32_dvd _ ⟨len, by ring⟩
      have hle' : int32 (len * 256) + b ≤ 2147483647 := by
        have h1 := int32_le (len * 256)
        omega
      have hge' : -2147483648 ≤ int32 (len * 256) + (b : Int) := by
        have := int32_ge (len * 256)
        omega
      show (if 2147483647 < int32 (len * 256) + (b : Int) then _ else
        derLenFold rest (int32 (len * 256) + b)) = _
      rw [if_neg (by omega)]
      rw [ih _ (fun x hx => hb x (by simp [hx])) hge' hle']
      rfl

theorem land127_eq_mod (b : Nat) : Nat.land b 127 = b % 128 := by
  have h : (127 : Nat) = 2 ^ 7 - 1 := by norm_num
  rw [show Nat.land b 127 = b &&& 127 from rfl, h, Nat.and_pow_two_sub_one_eq_mod]

theorem lor128_le4 : ∀ k : Nat, k ≤ 4 → Nat.lor 128 k = 128 + k := by decide

theorem land128_small (k : Nat) (hk : k < 128) : Nat.land (128 + k) 127 = k := by
  rw [land127_eq_mod]
  omega

/-! Claim C4: behavior of `readDERLength`. -/

/-- Claim C4 counterexample: the decoded length value is never compared
against the bytes available in the buffer.  `[0x81, 0xFF]` decodes to
length 255 with zero content bytes remaining, yet the call succeeds. -/
theorem readDERLength_missing_buffer_check_cex :
    readDERLength [0x81, 0xFF] 0 = .ok (255, 2) ∧ [(0x81 : Nat), 0xFF].length < 2 + 255 := by
  constructor
  · decide
  · decide

set_option maxRecDepth 4000 in
/-- Claim C4 (amended): on byte-valued input, `readDERLength` fails in
exactly these cases: offset out of range; long form with count `n = 0`;
long form whose `n` count bytes run past the buffer; and long form whose
accumulated value — computed with JavaScript 32-bit signed wrap-around —
ends at or below 127.  In every other case it returns the accumulated
value and the new offset.  In particular the decoded value is never
checked against the remaining buffer, and the `> 0x7FFFFFFF` rejection is
unreachable (values wrap instead). -/
theorem readDERLength_amended_spec (data : List Nat) (offset : Nat)
    (hb : ∀ b ∈ data, b < 256) :
    readDERLength data offset =
      if data.length ≤ offset then .error .formatLength
      else if data.getD offset 0 < 128 then .ok (data.getD offset 0, offset + 1)
      else if data.getD offset 0 = 128 ∨
          data.length < offset + 1 + (data.getD offset 0 - 128) then .error .formatInvalid
      else if accum32 ((data.drop (offset + 1)).take (data.getD offset 0 - 128)) 0 ≤ 127 then
        .error .formatInvalid
      else .ok ((accum32 ((data.drop (offset + 1)).take (data.getD offset 0 - 128)) 0).toNat,
          offset + 1 + (data.getD offset 0 - 128)) := by
  unfold readDERLength
  simp only [List.getD]
  by_cases hoff : data.length ≤ offset
  · simp [hoff]
  · rw [if_neg hoff, if_neg hoff]
    have hlt : offset < data.length := Nat.lt_of_not_le hoff
    have hsome : data.get? offset = some data[offset] := by
      simp [List.get?_eq_getElem?, List.getElem?_eq_getElem hlt]
    rw [hsome]
    simp only [Option.getD_some]
    have hfb : data[offset] < 256 := hb _ (List.getElem_mem hlt)
    by_cases hshort : data[offset] < 128
    · rw [if_pos hshort, if_pos hshort]
    · rw [if_neg hshort, if_neg hshort]
      have hland : Nat.land data[offset] 127 = data[offset] - 128 := by
        rw [land127_eq_mod]
        omega
      rw [hland]
      by_cases hn : data[offset] = 128 ∨ data.length < offset + 1 + (data[offset] - 128)
      · rw [if_pos (by omega), if_pos hn]
      · rw [if_neg (by omega), if_neg hn]
        have hslice : ∀ b ∈ (data.drop (offset + 1)).take (data[offset] - 128), b < 256 :=
          fun b hmem => hb b (List.mem_of_mem_drop (List.mem_of_mem_take hmem))
        rw [derLenFold_eq_accum _ 0 hslice (by norm_num) (by norm_num)]

/-! Claim C8: `encodeDERLength` / `readDERLength` round-trip. -/

theorem natToBytesBEF_val : ∀ fuel n, n < 256 ^ fuel →
    bytesToNat (natToBytesBEF fuel n) = n := by
  intro fuel
  induction fuel with
  | zero =>
      intro n hn
      interval_cases n
      rfl
  | succ f ih =>
      intro n hn
      rw [natToBytesBEF_succ]
      by_cases h0 : n = 0
      · simp [h0, bytesToNat]
      · rw [if_neg h0]
        have hdiv : n / 256 < 256 ^ f := by
          rw [pow_succ] at hn
          omega
        unfold bytesToNat at *
        rw [List.foldl_append, ih _ hdiv]
        simp
        omega

theorem natToBytesBEF_length : ∀ fuel n k, n < 256 ^ k → (natToBytesBEF fuel n).length ≤ k := by
  intro fuel
  induction fuel with
  | zero => intro n k _; simp [natToBytesBEF]
  | succ f ih =>
      intro n k hn
      rw [natToBytesBEF_succ]
      by_cases h0 : n = 0
      · simp [h0]
      · rw [if_neg h0]
        have hk : k ≠ 0 := by
          intro hk0
          rw [hk0, pow_zero] at hn
          omega
        have hdiv : n / 256 < 256 ^ (k - 1) := by
          have : 256 ^ k = 256 ^ (k - 1) * 256 := by
            conv_lhs => rw [show k = (k - 1) + 1 by omega]
            rw [pow_succ]
          omega
        have := ih (n / 256) (k - 1) hdiv
        simp only [List.length_append, List.length_cons, List.length_nil]
        omega

theorem natToBytesBEF_bytes : ∀ fuel n b, b ∈ natToBytesBEF fuel n → b < 256 := by
  intro fuel
  induction fuel with
  | zero => intro n b hb; simp [natToBytesBEF] at hb
  | succ f ih =>
      intro n b hb
      rw [natToBytesBEF_succ] at hb
      by_cases h0 : n = 0
      · simp [h0] at hb
      · rw [if_neg h0] at hb
        rcases List.mem_append.1 hb with h | h
        · exact ih _ _ h
        · simp at h
          omega

theorem natToBytesBEF_ne_nil (fuel n : Nat) (h0 : n ≠ 0) (hf : 0 < fuel) :
    natToBytesBEF fuel n ≠ [] := by
  obtain ⟨f, rfl⟩ : ∃ f, fuel = f + 1 := ⟨fuel - 1, by omega⟩
  rw [natToBytesBEF_succ, if_neg h0]
  simp

/-- Monotonicity of the big-endian accumulation fold. -/
theorem le_beVal : ∀ (l : List Nat) (a : Nat), a ≤ l.foldl (fun acc b => acc * 256 + b) a := by
  intro l
  induction l with
  | nil => intro a; simp
  | cons b rest ih =>
      intro a
      simp only [List.foldl_cons]
      calc a ≤ a * 256 + b := by omega
        _ ≤ _ := ih _

/-- With byte-valued input and a final value within the signed 32-bit
range, `accum32` computes the plain big-endian value (no wrap-around). -/
theorem accum32_eq_fold : ∀ (l : List Nat) (a : Nat), (∀ b ∈ l, b < 256) →
    l.foldl (fun acc b => acc * 256 + b) a ≤ 2147483647 →
    accum32 l (a : Int) = (l.foldl (fun acc b => acc * 256 + b) a : Nat) := by
  unfold accum32
  intro l
  induction l with
  | nil => intro a _ _; rfl
  | cons b rest ih =>
      intro a hb hle
      have hstep : a * 256 + b ≤ 2147483647 := le_trans (le_beVal rest _) hle
      have hcast : int32 ((a : Int) * 256) + (b : Int) = ((a * 256 + b : Nat) : Int) := by
        have h32 : int32 ((a : Int) * 256) = (a : Int) * 256 := by
          apply int32_of_range
          · positivity
          · omega
        rw [h32]
        push_cast
        ring
      rw [List.foldl_cons, List.foldl_cons, hcast]
      exact ih (a * 256 + b) (fun x hx => hb x (by simp [hx])) hle

/-- Short-form success of `readDERLength`: a first byte below 0x80 is
returned as the length with no further checks. -/
theorem readDERLength_shortform (data : List Nat) (offset b : Nat)
    (hget : data.get? offset = some b) (hb : b < 128) :
    readDERLength data offset = .ok (b, offset + 1) := by
  have hoff : ¬ data.length ≤ offset := fun hle => by
    rw [List.get?_eq_none.2 hle] at hget
    exact Option.noConfusion hget
  unfold readDERLength
  rw [if_neg hoff]
  simp only [List.getD, hget, Option.getD_some]
  rw [if_pos hb]

/-- Long-form success of `readDERLength` on a well-formed in-range field. -/
theorem readDERLength_longform (data : List Nat) (offset k : Nat) (ds : List Nat)
    (hget : data.get? offset = some (128 + k)) (hk : k ≠ 0) (hk2 : k < 128)
    (hdrop : (data.drop (offset + 1)).take k = ds)
    (hlen : offset + 1 + k ≤ data.length)
    (hbytes : ∀ b ∈ ds, b < 256)
    (hv : 127 < bytesToNat ds) (hv2 : bytesToNat ds ≤ 2147483647) :
    readDERLength data offset = .ok (bytesToNat ds, offset + 1 + k) := by
  have hoff : ¬ data.length ≤ offset := fun hle => by
    rw [List.get?_eq_none.2 hle] at hget
    exact Option.noConfusion hget
  unfold readDERLength
  rw [if_neg hoff]
  simp only [List.getD, hget, Option.getD_some]
  rw [if_neg (by omega), land128_small k hk2, hdrop, if_neg (by omega)]
  have hfold : derLenFold ds 0 = .ok (accum32 ds 0) :=
    derLenFold_eq_accum ds 0 hbytes (by norm_num) (by norm_num)
  have haccum : accum32 ds ((0 : Nat) : Int) = ((bytesToNat ds : Nat) : Int) :=
    accum32_eq_fold ds 0 hbytes hv2
  rw [show ((0 : Nat) : Int) = (0 : Int) by rfl] at haccum
  rw [hfold, haccum]
  show (if ((bytesToNat ds : Nat) : Int) ≤ 127 then _ else
    Except.ok (((bytesToNat ds : Nat) : Int).toNat, offset + 1 + k)) = _
  rw [if_neg (by omega)]
  simp

/-- Claim C8: for every `n` in `[0, 0x7FFFFFFF]`, decoding the encoding
round-trips, returning `n` together with an offset equal to the encoded
length-field's byte count. -/
theorem encodeDERLength_readDERLength_roundtrip (n : Nat) (h : n ≤ 2147483647) :
    ∃ enc, encodeDERLength n = .ok enc ∧ readDERLength enc 0 = .ok (n, enc.length) := by
  by_cases hs : n < 128
  · refine ⟨[n], ?_, ?_⟩
    · unfold encodeDERLength
      rw [if_neg (by omega), if_pos hs]
    · exact readDERLength_shortform [n] 0 n rfl hs
  · have hlt : n < 256 ^ n := Nat.lt_pow_self (by norm_num) n
    have hval := natToBytesBEF_val n n hlt
    have hlen4 : (natToBytesBEF n n).length ≤ 4 := by
      apply natToBytesBEF_length
      have h4 : (256 : Nat) ^ 4 = 4294967296 := by norm_num
      omega
    have hne : natToBytesBEF n n ≠ [] := natToBytesBEF_ne_nil n n (by omega) (by omega)
    set ds := natToBytesBEF n n with hds
    have hk1 : 1 ≤ ds.length := by
      cases hd : ds with
      | nil => exact absurd hd hne
      | cons a l => simp
    refine ⟨Nat.lor 128 ds.length :: ds, ?_, ?_⟩
    · unfold encodeDERLength
      rw [if_neg (by omega), if_neg (by omega)]
      rfl
    · have hlor : Nat.lor 128 ds.length = 128 + ds.length := lor128_le4 _ (by omega)
      have htake : ((Nat.lor 128 ds.length :: ds).drop 1).take ds.length = ds := by
        simp
      have hv127 : 127 < bytesToNat ds := by rw [hval]; omega
      have hvmax : bytesToNat ds ≤ 2147483647 := by rw [hval]; exact h
      have hres := readDERLength_longform (Nat.lor 128 ds.length :: ds) 0 ds.length ds
        (by rw [hlor]; rfl) (by omega) (by omega) htake (by simp; omega)
        (fun b hb => natToBytesBEF_bytes n n b hb) hv127 hvmax
      rw [hres, hval]
      simp [Nat.add_comm]

/-! Claims C2 and C9: the signature codec. -/

theorem encodeDERLength_small (n : Nat) (h : n < 128) : encodeDERLength n = .ok [n] := by
  unfold encodeDERLength
  rw [if_neg (by omega), if_pos h]

theorem stripzeros_cons (b : Nat) (t : List Nat) :
    stripzeros (b :: t) = if b = 0 ∧ t ≠ [] then stripzeros t else b :: t := by
  cases t with
  | nil => simp [stripzeros]
  | cons c r => rfl

theorem stripzeros_ne_nil : ∀ l : List Nat, l ≠ [] → stripzeros l ≠ [] := by
  intro l
  induction l with
  | nil => intro h; exact absurd rfl h
  | cons b rest ih =>
      intro _
      unfold stripzeros
      by_cases hc : b = 0 ∧ rest ≠ []
      · rw [if_pos hc]
        exact ih hc.2
      · rw [if_neg hc]
        simp

theorem stripzeros_length_le : ∀ l : List Nat, (stripzeros l).length ≤ l.length := by
  intro l
  induction l with
  | nil => simp [stripzeros]
  | cons b rest ih =>
      unfold stripzeros
      by_cases hc : b = 0 ∧ rest ≠ []
      · rw [if_pos hc]
        simp
        omega
      · rw [if_neg hc]

theorem stripzeros_eq_drop : ∀ l : List Nat, l ≠ [] →
    l = List.replicate (l.length - (stripzeros l).length) 0 ++ stripzeros l := by
  intro l
  induction l with
  | nil => intro h; exact absurd rfl h
  | cons b rest ih =>
      intro _
      unfold stripzeros
      by_cases hc : b = 0 ∧ rest ≠ []
      · rw [if_pos hc]
        have hle := stripzeros_length_le rest
        have hrep : (b :: rest).length - (stripzeros rest).length
            = (rest.length - (stripzeros rest).length) + 1 := by
          simp
          omega
        rw [hrep]
        rw [List.replicate_succ]
        rw [hc.1]
        simp only [List.cons_append]
        exact congrArg _ (ih hc.2)
      · rw [if_neg hc]
        simp

/-- The head structure of a stripped list: empty, a lone zero byte, or a
nonzero head. -/
theorem stripzeros_head : ∀ l : List Nat,
    stripzeros l = [] ∨ stripzeros l = [0] ∨ (stripzeros l).headD 0 ≠ 0 := by
  intro l
  induction l with
  | nil => left; rfl
  | cons b rest ih =>
      unfold stripzeros
      by_cases hc : b = 0 ∧ rest ≠ []
      · rw [if_pos hc]
        exact ih
      · rw [if_neg hc]
        by_cases hb : b = 0
        · right; left
          have : rest = [] := by
            by_contra hne
            exact hc ⟨hb, hne⟩
          rw [this, hb]
        · right; right
          simpa using hb

theorem stripzeros_cons_ne (b : Nat) (t : List Nat) (h : ¬(b = 0 ∧ t ≠ [])) :
    stripzeros (b :: t) = b :: t := by
  unfold stripzeros
  rw [if_neg h]

/-- Re-stripping a stripped list changes nothing. -/
theorem stripzeros_stripzeros (l : List Nat) : stripzeros (stripzeros l) = stripzeros l := by
  rcases stripzeros_head l with h | h | h
  · rw [h]; rfl
  · rw [h]; rfl
  · cases hs : stripzeros l with
    | nil => rfl
    | cons b t =>
        rw [hs] at h
        simp at h
        exact stripzeros_cons_ne b t (by tauto)

/-- Stripping after prepending the 0x00 guard byte recovers the stripped
magnitude. -/
theorem stripzeros_intContent (h : List Nat) (hne : h ≠ []) :
    stripzeros (intContent h) = stripzeros h := by
  unfold intContent
  by_cases hg : Nat.land ((stripzeros h).headD 0) 128 ≠ 0
  · rw [if_pos hg]
    have hsne : stripzeros h ≠ [] := stripzeros_ne_nil h hne
    rw [stripzeros_cons, if_pos ⟨rfl, hsne⟩, stripzeros_stripzeros]
  · rw [if_neg hg]
    exact stripzeros_stripzeros h

/-- Left-padding the stripped magnitude back to 32 bytes recovers the
original 32-byte half. -/
theorem pad32_stripzeros (h : List Nat) (hlen : h.length = 32) :
    pad32 (stripzeros h) = h := by
  have hne : h ≠ [] := by
    intro h0
    rw [h0] at hlen
    simp at hlen
  have hle := stripzeros_length_le h
  unfold pad32
  rw [if_pos (by omega)]
  conv_rhs => rw [stripzeros_eq_drop h hne]
  rw [hlen]

theorem intContent_length_le (h : List Nat) : (intContent h).length ≤ h.length + 1 := by
  have hle := stripzeros_length_le h
  unfold intContent
  by_cases hg : Nat.land ((stripzeros h).headD 0) 128 ≠ 0
  · rw [if_pos hg]
    simp
    omega
  · rw [if_neg hg]
    omega

theorem intContent_ne_nil (h : List Nat) (hne : h ≠ []) : intContent h ≠ [] := by
  have hs := stripzeros_ne_nil h hne
  unfold intContent
  by_cases hg : Nat.land ((stripzeros h).headD 0) 128 ≠ 0
  · rw [if_pos hg]
    simp
  · rw [if_neg hg]
    exact hs

theorem checkTag_ok (buf : List Nat) (off tag : Nat) (h : buf.get? off = some tag) :
    checkTag buf off tag = .ok (off + 1) := by
  unfold checkTag
  rw [h]
  simp

theorem bind_ok {α β : Type} (a : α) (f : α → Except Err β) :
    (Except.ok a : Except Err α) >>= f = f a := rfl

theorem bind_ok' {α β : Type} (a : α) (f : α → Except Err β) :
    (Except.ok a : Except Err α).bind f = f a := rfl

/-- Evaluation of `extractSignatureRS` on a short-form DER signature with
arbitrary INTEGER bodies: each body is stripped of leading zeros and
normalized into a 32-byte field. -/
theorem extractSignatureRS_shape (seqLen : Nat) (rb sb : List Nat)
    (hseq : seqLen < 128) (hrb : rb.length < 128) (hsb : sb.length < 128) :
    extractSignatureRS (ASN1.SEQUENCE :: seqLen :: ASN1.INTEGER :: rb.length ::
        (rb ++ (ASN1.INTEGER :: sb.length :: sb)))
      = .ok (pad32 (stripzeros rb) ++ pad32 (stripzeros sb)) := by
  have hINT : ASN1.INTEGER < 128 := by norm_num [ASN1.INTEGER]
  set der := ASN1.SEQUENCE :: seqLen :: ASN1.INTEGER :: rb.length ::
      (rb ++ (ASN1.INTEGER :: sb.length :: sb)) with hderdef
  have hfront : der = (ASN1.SEQUENCE :: seqLen :: ASN1.INTEGER :: rb.length :: rb)
      ++ (ASN1.INTEGER :: sb.length :: sb) := by simp [hderdef]
  have h0 : checkTag der 0 ASN1.SEQUENCE = .ok 1 := checkTag_ok der 0 _ rfl
  have h1 : readDERLength der 1 = .ok (seqLen, 2) :=
    readDERLength_shortform der 1 seqLen rfl hseq
  have h2 : checkTag der 2 ASN1.INTEGER = .ok 3 := checkTag_ok der 2 _ rfl
  have h3 : readDERLength der 3 = .ok (rb.length, 4) :=
    readDERLength_shortform der 3 rb.length rfl hrb
  have hdrop4 : der.drop 4 = rb ++ (ASN1.INTEGER :: sb.length :: sb) := rfl
  have hsliceR : (der.drop 4).take rb.length = rb := by
    rw [hdrop4]
    exact List.take_left rb _
  have hfrontlen : (ASN1.SEQUENCE :: seqLen :: ASN1.INTEGER :: rb.length :: rb).length
      = 4 + rb.length := by simp; omega
  have h4 : checkTag der (4 + rb.length) ASN1.INTEGER = .ok (4 + rb.length + 1) := by
    apply checkTag_ok
    rw [hfront, List.get?_append_right (by omega : _ ≤ 4 + rb.length)]
    rw [hfrontlen]
    simp
  have h5 : readDERLength der (4 + rb.length + 1) = .ok (sb.length, 4 + rb.length + 1 + 1) := by
    apply readDERLength_shortform der _ _ _ hsb
    rw [hfront, List.get?_append_right (by omega : _ ≤ 4 + rb.length + 1)]
    rw [hfrontlen]
    have : 4 + rb.length + 1 - (4 + rb.length) = 1 := by omega
    rw [this]
    rfl
  have hsliceS : (der.drop (4 + rb.length + 1 + 1)).take sb.length = sb := by
    have hd : der.drop (4 + rb.length + 1 + 1) = sb := by
      have hsplit : der = ((ASN1.SEQUENCE :: seqLen :: ASN1.INTEGER :: rb.length :: rb)
          ++ [ASN1.INTEGER, sb.length]) ++ sb := by simp [hderdef]
      have hlen2 : ((ASN1.SEQUENCE :: seqLen :: ASN1.INTEGER :: rb.length :: rb)
          ++ [ASN1.INTEGER, sb.length]).length = 4 + rb.length + 1 + 1 := by simp; omega
      rw [hsplit]
      have := @List.drop_append _
        ((ASN1.SEQUENCE :: seqLen :: ASN1.INTEGER :: rb.length :: rb)
          ++ [ASN1.INTEGER, sb.length]) sb 0
      rw [hlen2] at this
      simpa using this
    rw [hd]
    exact List.take_of_length_le (le_refl _)
  unfold extractSignatureRS
  rw [h0, bind_ok, h1]
  simp only [bind_ok]
  rw [h2, bind_ok, h3]
  simp only [bind_ok]
  rw [hsliceR, h4, bind_ok, h5]
  simp only [bind_ok]
  rw [hsliceS]
  rfl

/-- Claim C2: for every 64-byte raw signature, whatever its leading-zero
and high-bit patterns, converting to DER and extracting again returns the
original bytes. -/
theorem signature_der_roundtrip (sig : List Nat) (hlen : sig.length = 64)
    (hbytes : ∀ b ∈ sig, b < 256) :
    (signatureToDER sig).bind extractSignatureRS = .ok sig := by
  have hr : (sig.take 32).length = 32 := by simp [hlen]
  have hs : ((sig.drop 32).take 32).length = 32 := by simp [hlen]
  have hrne : sig.take 32 ≠ [] := by
    intro h
    rw [h] at hr
    simp at hr
  have hsne : (sig.drop 32).take 32 ≠ [] := by
    intro h
    rw [h] at hs
    simp at hs
  have hrA : (intContent (sig.take 32)).length ≤ 33 := by
    have := intContent_length_le (sig.take 32)
    omega
  have hsA : (intContent ((sig.drop 32).take 32)).length ≤ 33 := by
    have := intContent_length_le ((sig.drop 32).take 32)
    omega
  set rA := intContent (sig.take 32) with hrAdef
  set sA := intContent ((sig.drop 32).take 32) with hsAdef
  have hder : signatureToDER sig = .ok (ASN1.SEQUENCE ::
      ((ASN1.INTEGER :: ([rA.length] ++ rA)) ++ (ASN1.INTEGER :: ([sA.length] ++ sA))).length ::
      ASN1.INTEGER :: rA.length :: (rA ++ (ASN1.INTEGER :: sA.length :: sA))) := by
    unfold signatureToDER
    rw [if_neg (by omega)]
    dsimp only
    rw [← hrAdef, ← hsAdef]
    rw [encodeDERLength_small rA.length (by omega), bind_ok']
    rw [encodeDERLength_small sA.length (by omega), bind_ok']
    rw [encodeDERLength_small
      (((ASN1.INTEGER :: ([rA.length] ++ rA)) ++ (ASN1.INTEGER :: ([sA.length] ++ sA))).length)
      (by simp; omega), bind_ok']
    simp [List.append_assoc]
  rw [hder]
  show extractSignatureRS _ = _
  rw [extractSignatureRS_shape _ rA sA (by simp; omega) (by omega) (by omega)]
  rw [stripzeros_intContent _ hrne, stripzeros_intContent _ hsne]
  rw [pad32_stripzeros _ hr, pad32_stripzeros _ hs]
  have hdrop : (sig.drop 32).take 32 = sig.drop 32 :=
    List.take_of_length_le (by simp [hlen])
  rw [hdrop, List.take_append_drop]

/-- Witness for `signature_der_roundtrip` on a signature with leading
zeros in r and a set high bit in s. -/
theorem signature_der_roundtrip_witness :
    (signatureToDER (List.replicate 31 0 ++ [5] ++ (128 :: List.replicate 31 7))).bind
      extractSignatureRS = .ok (List.replicate 31 0 ++ [5] ++ (128 :: List.replicate 31 7)) :=
  signature_der_roundtrip _ (by decide) (by decide)

/-- Claim C9: a well-formed DER signature whose INTEGER content is longer
than 32 bytes after stripping leading zeros does not make
`extractSignatureRS` fail: the 32-byte half keeps only the 32 most
significant magnitude bytes and the remaining low-order bytes are
silently discarded. -/
theorem extractSignatureRS_overlong (seqLen : Nat) (rb sb : List Nat)
    (hseq : seqLen < 128) (hrb : rb.length < 128) (hsb : sb.length < 128)
    (hover : 32 < (stripzeros rb).length) :
    extractSignatureRS (ASN1.SEQUENCE :: seqLen :: ASN1.INTEGER :: rb.length ::
        (rb ++ (ASN1.INTEGER :: sb.length :: sb)))
      = .ok ((stripzeros rb).take 32 ++ pad32 (stripzeros sb)) := by
  rw [extractSignatureRS_shape seqLen rb sb hseq hrb hsb]
  have : pad32 (stripzeros rb) = (stripzeros rb).take 32 := by
    unfold pad32
    rw [if_neg (by omega)]
  rw [this]

/-- Witness for `extractSignatureRS_overlong`: a 33-byte r magnitude with
no leading zeros loses its least significant byte. -/
theorem extractSignatureRS_overlong_witness :
    extractSignatureRS (ASN1.SEQUENCE :: 70 :: ASN1.INTEGER :: (1 :: List.replicate 32 9).length ::
        ((1 :: List.replicate 32 9) ++ (ASN1.INTEGER :: [4].length :: [4])))
      = .ok ((stripzeros (1 :: List.replicate 32 9)).take 32 ++ pad32 (stripzeros [4])) :=
  extractSignatureRS_overlong 70 (1 :: List.replicate 32 9) [4]
    (by norm_num) (by simp) (by simp) (by decide)

/-! Claims C10 and C5: `parsePublicKeyDER`. -/

theorem checkOID_ok (buf : List Nat) (offset : Nat) (oid : List Nat)
    (hlen : offset + oid.length ≤ buf.length)
    (hslice : (buf.drop offset).take oid.length = oid) :
    checkOID buf offset oid = .ok (offset + oid.length) := by
  unfold checkOID
  rw [if_neg]
  push_neg
  exact ⟨hlen, hslice⟩

/-- Shared evaluation lemma: `parsePublicKeyDER` succeeds on any input
whose bytes at the successively reached positions carry the expected
tags and OIDs, with arbitrary short-form length fields `l1..l5`, an
arbitrary unused-bits byte `u`, and arbitrary trailing bytes. -/
theorem parsePublicKeyDER_shape (l1 l2 l3 l4 l5 u : Nat) (x y junk : List Nat)
    (h1 : l1 < 128) (h2 : l2 < 128) (h3 : l3 < 128) (h4 : l4 < 128) (h5 : l5 < 128)
    (hx : x.length = 32) (hy : y.length = 32) :
    parsePublicKeyDER ([ASN1.SEQUENCE, l1, ASN1.SEQUENCE, l2, ASN1.OBJECT_IDENTIFIER, l3]
        ++ EC_OID ++ [ASN1.OBJECT_IDENTIFIER, l4] ++ SM2_OID
        ++ [ASN1.BIT_STRING, l5, u, 0x04] ++ x ++ y ++ junk) = .ok (x ++ y) := by
  have hder : [ASN1.SEQUENCE, l1, ASN1.SEQUENCE, l2, ASN1.OBJECT_IDENTIFIER, l3]
        ++ EC_OID ++ [ASN1.OBJECT_IDENTIFIER, l4] ++ SM2_OID
        ++ [ASN1.BIT_STRING, l5, u, 0x04] ++ x ++ y ++ junk
      = ASN1.SEQUENCE :: l1 :: ASN1.SEQUENCE :: l2 :: ASN1.OBJECT_IDENTIFIER :: l3 ::
        0x2A :: 0x86 :: 0x48 :: 0xCE :: 0x3D :: 0x02 :: 0x01 ::
        ASN1.OBJECT_IDENTIFIER :: l4 ::
        0x2A :: 0x81 :: 0x1C :: 0xCF :: 0x55 :: 0x01 :: 0x82 :: 0x2D ::
        ASN1.BIT_STRING :: l5 :: u :: 0x04 :: (x ++ (y ++ junk)) := by
    simp [EC_OID, SM2_OID]
  rw [hder]
  set der := ASN1.SEQUENCE :: l1 :: ASN1.SEQUENCE :: l2 :: ASN1.OBJECT_IDENTIFIER :: l3 ::
      0x2A :: 0x86 :: 0x48 :: 0xCE :: 0x3D :: 0x02 :: 0x01 ::
      ASN1.OBJECT_IDENTIFIER :: l4 ::
      0x2A :: 0x81 :: 0x1C :: 0xCF :: 0x55 :: 0x01 :: 0x82 :: 0x2D ::
      ASN1.BIT_STRING :: l5 :: u :: 0x04 :: (x ++ (y ++ junk)) with hderdef
  have hlen : der.length = 91 + junk.length := by
    simp [hderdef, hx, hy]
    omega
  unfold parsePublicKeyDER
  rw [checkTag_ok der 0 _ rfl, bind_ok]
  rw [readDERLength_shortform der 1 l1 rfl h1, bind_ok]
  dsimp only
  rw [checkTag_ok der 2 _ rfl, bind_ok]
  rw [readDERLength_shortform der 3 l2 rfl h2, bind_ok]
  dsimp only
  rw [checkTag_ok der 4 _ rfl, bind_ok]
  rw [readDERLength_shortform der 5 l3 rfl h3, bind_ok]
  dsimp only
  rw [checkOID_ok der 6 EC_OID (by rw [hlen]; simp [EC_OID]; omega) rfl, bind_ok]
  have h13 : (6 : Nat) + EC_OID.length = 13 := by simp [EC_OID]
  rw [h13]
  rw [checkTag_ok der 13 _ rfl, bind_ok]
  rw [readDERLength_shortform der 14 l4 rfl h4, bind_ok]
  dsimp only
  rw [checkOID_ok der 15 SM2_OID (by rw [hlen]; simp [SM2_OID]; omega) rfl, bind_ok]
  have h23 : (15 : Nat) + SM2_OID.length = 23 := by simp [SM2_OID]
  rw [h23]
  rw [checkTag_ok der 23 _ rfl, bind_ok]
  rw [readDERLength_shortform der 24 l5 rfl h5, bind_ok]
  dsimp only
  rw [if_neg (by rw [hlen]; omega)]
  rw [checkTag_ok der 26 _ rfl, bind_ok]
  have hslice : (der.drop 27).take 64 = x ++ y := by
    have hd : der.drop 27 = (x ++ y) ++ junk := by
      rw [hderdef]
      simp [List.append_assoc]
    rw [hd]
    exact List.take_left' (by simp [hx, hy])
  rw [hslice]
  rfl

/-- Claim C10: `parsePublicKeyDER` never checks a decoded length field
against the content and never checks the BIT STRING's unused-bits byte:
whenever the expected tags and OIDs appear at the successively reached
positions and at least 64 bytes follow the 0x04 marker, parsing succeeds
and returns those 64 bytes — for arbitrary declared lengths `l1..l5`,
any unused-bits byte `u`, and arbitrary trailing bytes. -/
theorem parsePublicKeyDER_ignores_lengths (l1 l2 l3 l4 l5 u : Nat) (x y junk : List Nat)
    (h1 : l1 < 128) (h2 : l2 < 128) (h3 : l3 < 128) (h4 : l4 < 128) (h5 : l5 < 128)
    (hx : x.length = 32) (hy : y.length = 32) :
    parsePublicKeyDER ([ASN1.SEQUENCE, l1, ASN1.SEQUENCE, l2, ASN1.OBJECT_IDENTIFIER, l3]
        ++ EC_OID ++ [ASN1.OBJECT_IDENTIFIER, l4] ++ SM2_OID
        ++ [ASN1.BIT_STRING, l5, u, 0x04] ++ x ++ y ++ junk) = .ok (x ++ y) :=
  parsePublicKeyDER_shape l1 l2 l3 l4 l5 u x y junk h1 h2 h3 h4 h5 hx hy

/-- Witness for `parsePublicKeyDER_ignores_lengths`: all length fields
wrong (zero), a nonzero unused-bits byte, and trailing garbage. -/
theorem parsePublicKeyDER_ignores_lengths_witness :
    parsePublicKeyDER ([ASN1.SEQUENCE, 0, ASN1.SEQUENCE, 0, ASN1.OBJECT_IDENTIFIER, 0]
        ++ EC_OID ++ [ASN1.OBJECT_IDENTIFIER, 0] ++ SM2_OID
        ++ [ASN1.BIT_STRING, 0, 0xFF, 0x04] ++ List.replicate 32 1 ++ List.replicate 32 2
        ++ [9, 9, 9]) = .ok (List.replicate 32 1 ++ List.replicate 32 2) :=
  parsePublicKeyDER_ignores_lengths 0 0 0 0 0 0xFF _ _ [9, 9, 9]
    (by norm_num) (by norm_num) (by norm_num) (by norm_num) (by norm_num)
    (by simp) (by simp)

/-- Claim C5: for 32-byte coordinates that are not both all-zero,
building the DER public key and parsing it back returns `x ‖ y`. -/
theorem publicKeyToDER_parse_roundtrip (x y : List Nat)
    (hx : x.length = 32) (hy : y.length = 32)
    (hnz : ¬(x = List.replicate 32 0 ∧ y = List.replicate 32 0)) :
    (publicKeyToDER x y).bind parsePublicKeyDER = .ok (x ++ y) := by
  have hval : validatePublicKeyCoordinates x y = .ok () := by
    unfold validatePublicKeyCoordinates
    rw [if_neg (by omega), if_neg]
    intro hall
    rw [List.all_eq_true] at hall
    have hzero : ∀ i, i < 32 → x.getD i 0 = 0 ∧ y.getD i 0 = 0 := by
      intro i hi
      have := hall i (List.mem_range.2 hi)
      simp only [Bool.and_eq_true, beq_iff_eq] at this
      exact this
    apply hnz
    constructor
    · apply List.eq_replicate_iff.2
      refine ⟨hx, ?_⟩
      intro b hb
      obtain ⟨i, hi, hib⟩ := List.mem_iff_getElem.1 hb
      have h0 := (hzero i (by omega)).1
      rw [List.getD_eq_getElem x 0 hi] at h0
      rw [← hib, h0]
    · apply List.eq_replicate_iff.2
      refine ⟨hy, ?_⟩
      intro b hb
      obtain ⟨i, hi, hib⟩ := List.mem_iff_getElem.1 hb
      have h0 := (hzero i (by omega)).2
      rw [List.getD_eq_getElem y 0 hi] at h0
      rw [← hib, h0]
  unfold publicKeyToDER
  rw [hval]
  simp only [bind_ok]
  rw [show (pure (DER_PUBLIC_KEY_HEAD ++ 0x04 :: (x ++ y)) : Except Err (List Nat))
      = Except.ok (DER_PUBLIC_KEY_HEAD ++ 0x04 :: (x ++ y)) from rfl]
  rw [bind_ok']
  have hshape : DER_PUBLIC_KEY_HEAD ++ 0x04 :: (x ++ y)
      = [ASN1.SEQUENCE, 0x59, ASN1.SEQUENCE, 0x13, ASN1.OBJECT_IDENTIFIER, 0x07]
        ++ EC_OID ++ [ASN1.OBJECT_IDENTIFIER, 0x08] ++ SM2_OID
        ++ [ASN1.BIT_STRING, 0x42, 0x00, 0x04] ++ x ++ y ++ ([] : List Nat) := by
    simp [DER_PUBLIC_KEY_HEAD, EC_OID, SM2_OID, ASN1.SEQUENCE, ASN1.OBJECT_IDENTIFIER,
      ASN1.BIT_STRING]
  rw [hshape]
  exact parsePublicKeyDER_shape 0x59 0x13 0x07 0x08 0x42 0 x y []
    (by norm_num) (by norm_num) (by norm_num) (by norm_num) (by norm_num) hx hy

/-- Witness for `publicKeyToDER_parse_roundtrip`. -/
theorem publicKeyToDER_parse_roundtrip_witness :
    (publicKeyToDER (List.replicate 32 1) (List.replicate 32 2)).bind parsePublicKeyDER
      = .ok (List.replicate 32 1 ++ List.replicate 32 2) :=
  publicKeyToDER_parse_roundtrip _ _ (by simp) (by simp) (by decide)

/-! Claim C7: `extractSecretKeyD`. -/

theorem bind_err {α β : Type} (e : Err) (f : α → Except Err β) :
    (Except.error e : Except Err α) >>= f = .error e := rfl

theorem pure_bind_ok {α β : Type} (a : α) (f : α → Except Err β) :
    (pure a : Except Err α) >>= f = f a := rfl

/-- Claim C7: on an ECPrivateKey structure whose tags and OIDs validate,
`extractSecretKeyD` throws a length error whenever the decoded
private-key OCTET STRING length `n` differs from 32, and returns the 32
content bytes when `n = 32`. -/
theorem extractSecretKeyD_spec (l1 l2 v l3 l4 l5 l6 l7 l8 w n : Nat) (body : List Nat)
    (h1 : l1 < 128) (h2 : l2 < 128) (h3 : l3 < 128) (h4 : l4 < 128) (h5 : l5 < 128)
    (h6 : l6 < 128) (h7 : l7 < 128) (h8 : l8 < 128) (hn : n < 128)
    (hbody : 32 ≤ body.length) :
    extractSecretKeyD ([ASN1.SEQUENCE, l1, ASN1.INTEGER, l2, v, ASN1.SEQUENCE, l3,
        ASN1.OBJECT_IDENTIFIER, l4] ++ EC_OID ++ [ASN1.OBJECT_IDENTIFIER, l5] ++ SM2_OID
        ++ [ASN1.OCTET_STRING, l6, ASN1.SEQUENCE, l7, ASN1.INTEGER, l8, w,
            ASN1.OCTET_STRING, n] ++ body)
      = if n = 32 then .ok (body.take 32) else .error .formatLength := by
  have hder : [ASN1.SEQUENCE, l1, ASN1.INTEGER, l2, v, ASN1.SEQUENCE, l3,
        ASN1.OBJECT_IDENTIFIER, l4] ++ EC_OID ++ [ASN1.OBJECT_IDENTIFIER, l5] ++ SM2_OID
        ++ [ASN1.OCTET_STRING, l6, ASN1.SEQUENCE, l7, ASN1.INTEGER, l8, w,
            ASN1.OCTET_STRING, n] ++ body
      = ASN1.SEQUENCE :: l1 :: ASN1.INTEGER :: l2 :: v :: ASN1.SEQUENCE :: l3 ::
        ASN1.OBJECT_IDENTIFIER :: l4 ::
        0x2A :: 0x86 :: 0x48 :: 0xCE :: 0x3D :: 0x02 :: 0x01 ::
        ASN1.OBJECT_IDENTIFIER :: l5 ::
        0x2A :: 0x81 :: 0x1C :: 0xCF :: 0x55 :: 0x01 :: 0x82 :: 0x2D ::
        ASN1.OCTET_STRING :: l6 :: ASN1.SEQUENCE :: l7 :: ASN1.INTEGER :: l8 :: w ::
        ASN1.OCTET_STRING :: n :: body := by
    simp [EC_OID, SM2_OID]
  rw [hder]
  set der := ASN1.SEQUENCE :: l1 :: ASN1.INTEGER :: l2 :: v :: ASN1.SEQUENCE :: l3 ::
      ASN1.OBJECT_IDENTIFIER :: l4 ::
      0x2A :: 0x86 :: 0x48 :: 0xCE :: 0x3D :: 0x02 :: 0x01 ::
      ASN1.OBJECT_IDENTIFIER :: l5 ::
      0x2A :: 0x81 :: 0x1C :: 0xCF :: 0x55 :: 0x01 :: 0x82 :: 0x2D ::
      ASN1.OCTET_STRING :: l6 :: ASN1.SEQUENCE :: l7 :: ASN1.INTEGER :: l8 :: w ::
      ASN1.OCTET_STRING :: n :: body with hderdef
  have hlen : der.length = 35 + body.length := by
    simp [hderdef]
    omega
  unfold extractSecretKeyD
  rw [checkTag_ok der 0 _ rfl, bind_ok]
  rw [readDERLength_shortform der 1 l1 rfl h1, bind_ok]
  dsimp only
  rw [checkTag_ok der 2 _ rfl, bind_ok]
  rw [readDERLength_shortform der 3 l2 rfl h2, bind_ok]
  dsimp only
  rw [checkTag_ok der 5 _ rfl, bind_ok]
  rw [readDERLength_shortform der 6 l3 rfl h3, bind_ok]
  dsimp only
  rw [checkTag_ok der 7 _ rfl, bind_ok]
  rw [readDERLength_shortform der 8 l4 rfl h4, bind_ok]
  dsimp only
  rw [checkOID_ok der 9 EC_OID (by rw [hlen]; simp [EC_OID]; omega) rfl, bind_ok]
  have h16 : (9 : Nat) + EC_OID.length = 16 := by simp [EC_OID]
  rw [h16]
  rw [checkTag_ok der 16 _ rfl, bind_ok]
  rw [readDERLength_shortform der 17 l5 rfl h5, bind_ok]
  dsimp only
  rw [checkOID_ok der 18 SM2_OID (by rw [hlen]; simp [SM2_OID]; omega) rfl, bind_ok]
  have h26 : (18 : Nat) + SM2_OID.length = 26 := by simp [SM2_OID]
  rw [h26]
  rw [checkTag_ok der 26 _ rfl, bind_ok]
  rw [readDERLength_shortform der 27 l6 rfl h6, bind_ok]
  dsimp only
  rw [checkTag_ok der 28 _ rfl, bind_ok]
  rw [readDERLength_shortform der 29 l7 rfl h7, bind_ok]
  dsimp only
  rw [checkTag_ok der 30 _ rfl, bind_ok]
  rw [readDERLength_shortform der 31 l8 rfl h8, bind_ok]
  dsimp only
  rw [checkTag_ok der 33 _ rfl, bind_ok]
  rw [readDERLength_shortform der 34 n rfl hn, bind_ok]
  dsimp only
  by_cases hn32 : n = 32
  · rw [if_neg (by omega), if_pos hn32]
    have hdrop : der.drop 35 = body := rfl
    rw [pure_bind_ok, hdrop, hn32]
    rfl
  · rw [if_pos (by omega), if_neg hn32]
    rfl

/-- Witness for `extractSecretKeyD_spec` with a correct 32-byte length. -/
theorem extractSecretKeyD_spec_witness :
    extractSecretKeyD ([ASN1.SEQUENCE, 0x7F, ASN1.INTEGER, 1, 0, ASN1.SEQUENCE, 0x13,
        ASN1.OBJECT_IDENTIFIER, 7] ++ EC_OID ++ [ASN1.OBJECT_IDENTIFIER, 8] ++ SM2_OID
        ++ [ASN1.OCTET_STRING, 0x6D, ASN1.SEQUENCE, 0x6B, ASN1.INTEGER, 1, 1,
            ASN1.OCTET_STRING, 32] ++ List.replicate 33 5)
      = if 32 = 32 then .ok ((List.replicate 33 5).take 32) else .error .formatLength :=
  extractSecretKeyD_spec 0x7F 1 0 0x13 7 8 0x6D 0x6B 1 1 32 (List.replicate 33 5)
    (by norm_num) (by norm_num) (by norm_num) (by norm_num) (by norm_num)
    (by norm_num) (by norm_num) (by norm_num) (by norm_num) (by simp)

/-! Correctness of `modularSquareRoot` for a prime modulus (claims C6, C3). -/

theorem pm_eq_zmod (b e p : Nat) [NeZero p] (hp : 1 < p) :
    pm b e p = ((b : ZMod p) ^ e).val := by
  rw [pm_eq b e p hp, ← Nat.cast_pow, ZMod.val_natCast]

theorem cast_pm (b e p : Nat) [NeZero p] (hp : 1 < p) :
    ((pm b e p : Nat) : ZMod p) = (b : ZMod p) ^ e := by
  rw [pm_eq_zmod b e p hp, ZMod.natCast_zmod_val]

/-- `factorTwo` really factors out the powers of two. -/
theorem factorTwoF_spec : ∀ fuel q, 0 < q → q ≤ fuel →
    q = (factorTwoF fuel q).2 * 2 ^ (factorTwoF fuel q).1 ∧ (factorTwoF fuel q).2 % 2 = 1 := by
  intro fuel
  induction fuel with
  | zero => intro q h0 hf; omega
  | succ f ih =>
      intro q h0 hf
      rw [factorTwoF_succ]
      by_cases he : q % 2 = 0
      · rw [if_pos he]
        have hq2 : 0 < q / 2 := by omega
        have hle : q / 2 ≤ f := by omega
        obtain ⟨hval, hodd⟩ := ih (q / 2) hq2 hle
        refine ⟨?_, hodd⟩
        show q = (factorTwoF f (q / 2)).2 * 2 ^ ((factorTwoF f (q / 2)).1 + 1)
        rw [pow_succ, ← mul_assoc, ← hval]
        omega
      · rw [if_neg he]
        exact ⟨by simp, by omega⟩

/-- The non-residue search returns the least `z ≥ z0` whose Euler power
differs from 1, provided one exists within the fuel. -/
theorem zSearchF_finds (p q : Nat) : ∀ fuel z0,
    (∃ w, z0 ≤ w ∧ w < z0 + fuel ∧ pm w q p ≠ 1) →
    ∃ z, zSearchF p q fuel z0 = some z ∧ pm z q p ≠ 1 ∧ z0 ≤ z ∧
      ∀ w, z0 ≤ w → w < z → pm w q p = 1 := by
  intro fuel
  induction fuel with
  | zero =>
      intro z0 ⟨w, hw1, hw2, _⟩
      omega
  | succ f ih =>
      intro z0 ⟨w, hw1, hw2, hw3⟩
      rw [zSearchF_succ]
      by_cases hz : pm z0 q p = 1
      · rw [if_pos hz]
        have hww : z0 + 1 ≤ w := by
          rcases Nat.eq_or_lt_of_le hw1 with h | h
          · exact absurd hz (h ▸ hw3)
          · omega
        obtain ⟨z, hfind, hne, hge, hmin⟩ := ih (z0 + 1) ⟨w, hww, by omega, hw3⟩
        refine ⟨z, hfind, hne, by omega, ?_⟩
        intro w' h1 h2
        rcases Nat.eq_or_lt_of_le h1 with h | h
        · rw [← h]; exact hz
        · exact hmin w' (by omega) h2
      · rw [if_neg hz]
        exact ⟨z0, rfl, hz, le_refl _, fun w' h1 h2 => by omega⟩

/-- Exponents of nonzero elements of `ZMod p` may be reduced modulo
`p - 1` (Fermat). -/
theorem pow_emod_card_sub_one (p : Nat) [Fact p.Prime] (a : ZMod p) (ha : a ≠ 0) (n : Nat) :
    a ^ (n % (p - 1)) = a ^ n := by
  conv_rhs => rw [← Nat.div_add_mod n (p - 1)]
  rw [pow_add, pow_mul, ZMod.pow_card_sub_one_eq_one ha, one_pow, one_mul]

/-- The inner squaring loop finds the least `j ≥ i` with `T^(2^j) = 1`,
given one exists within the remaining iteration budget. -/
theorem iSearchF_finds (p : Nat) [NeZero p] (hp : 1 < p) (T : ZMod p) : ∀ rem temp i,
    temp = (T ^ 2 ^ i).val →
    (∃ j, i ≤ j ∧ j < i + rem ∧ T ^ 2 ^ j = 1) →
    ∃ j, iSearchF p rem temp i = j ∧ i ≤ j ∧ T ^ 2 ^ j = 1 ∧
      ∀ j', i ≤ j' → j' < j → T ^ 2 ^ j' ≠ 1 := by
  haveI : Fact (1 < p) := ⟨hp⟩
  intro rem
  induction rem with
  | zero =>
      intro temp i _ ⟨j, hj1, hj2, _⟩
      omega
  | succ f ih =>
      intro temp i htemp ⟨j, hj1, hj2, hj3⟩
      rw [iSearchF_succ]
      by_cases h1 : temp = 1
      · rw [if_pos h1]
        refine ⟨i, rfl, le_refl _, ?_, fun j' ha hb => by omega⟩
        have : (T ^ 2 ^ i).val = (1 : ZMod p).val := by
          rw [← htemp, h1, ZMod.val_one p]
        exact ZMod.val_injective p this
      · rw [if_neg h1]
        have hTi : T ^ 2 ^ i ≠ 1 := by
          intro he
          apply h1
          rw [htemp, he, ZMod.val_one p]
        have htemp' : temp * temp % p = (T ^ 2 ^ (i + 1)).val := by
          rw [htemp, ← ZMod.val_mul, ← pow_add]
          congr 1
          rw [pow_succ]
          ring_nf
        have hjge : i + 1 ≤ j := by
          rcases Nat.eq_or_lt_of_le hj1 with h | h
          · exact absurd hj3 (h ▸ hTi)
          · omega
        obtain ⟨j', hfind, hge, hone, hmin⟩ :=
          ih (temp * temp % p) (i + 1) htemp' ⟨j, hjge, by omega, hj3⟩
        refine ⟨j', hfind, by omega, hone, ?_⟩
        intro k hk1 hk2
        rcases Nat.eq_or_lt_of_le hk1 with h | h
        · rw [← h]; exact hTi
        · exact hmin k (by omega) hk2

/-- Main-loop correctness of Tonelli-Shanks over a prime modulus: from a
state satisfying the standard invariants the loop returns a square root
of `Av`. -/
theorem msrLoopF_correct (p : Nat) [Fact p.Prime] (hp2 : 2 < p) (Av : ZMod p) :
    ∀ fuel m c r t : Nat, m ≤ fuel → 1 ≤ m →
    c < p → r < p → t < p →
    ((r : ZMod p)) ^ 2 = Av * ((t : ZMod p)) →
    ((t : ZMod p)) ^ 2 ^ (m - 1) = 1 →
    ((c : ZMod p)) ^ 2 ^ (m - 1) = -1 →
    ∃ res : Nat, msrLoopF p fuel c r t m = some res ∧ ((res : ZMod p)) ^ 2 = Av ∧ res < p := by
  haveI : NeZero p := ⟨by omega⟩
  have hp1 : 1 < p := by omega
  haveI : Fact (1 < p) := ⟨hp1⟩
  have hpowpow : ∀ (X : ZMod p) (a b : Nat), (X ^ 2 ^ a) ^ 2 ^ b = X ^ 2 ^ (a + b) := by
    intro X a b
    rw [← pow_mul, ← pow_add]
  intro fuel
  induction fuel with
  | zero =>
      intro m c r t hmf hm1 _ _ _ _ _ _
      omega
  | succ f ih =>
      intro m c r t hmf hm1 hc hr ht hrt htm hcm
      rw [msrLoopF_succ]
      by_cases ht1 : t = 1
      · rw [if_pos ht1]
        refine ⟨r, rfl, ?_, hr⟩
        rw [hrt, ht1]
        simp
      · rw [if_neg ht1]
        have hTne : ((t : ZMod p)) ≠ 1 := by
          intro he
          apply ht1
          have hv : ((t : ZMod p)).val = (1 : ZMod p).val := by rw [he]
          rw [ZMod.val_cast_of_lt ht, ZMod.val_one p] at hv
          exact hv
        have hex : ∃ j, 0 ≤ j ∧ j < 0 + m ∧ ((t : ZMod p)) ^ 2 ^ j = 1 :=
          ⟨m - 1, by omega, by omega, htm⟩
        obtain ⟨j, hjfind, _, hjone, hjmin⟩ := iSearchF_finds p hp1 ((t : ZMod p)) m t 0
          (by rw [pow_zero, pow_one, ZMod.val_cast_of_lt ht]) hex
        have hj1 : 1 ≤ j := by
          rcases Nat.eq_zero_or_pos j with h | h
          · exfalso
            apply hTne
            have h1 := hjone
            rw [h, pow_zero, pow_one] at h1
            exact h1
          · omega
        have hjm : j ≤ m - 1 := by
          by_contra hgt
          exact (hjmin (m - 1) (by omega) (by omega)) htm
        rw [hjfind]
        rw [if_neg (by omega)]
        dsimp only
        have hCne : ((c : ZMod p)) ≠ 0 := by
          intro h0
          rw [h0, zero_pow (by positivity)] at hcm
          exact one_ne_zero (neg_eq_zero.1 hcm.symm)
        have hblt : pm c (pm 2 (m - j - 1) (p - 1)) p < p := pm_lt _ _ _ hp1
        have hbcast : (((pm c (pm 2 (m - j - 1) (p - 1)) p : Nat)) : ZMod p)
            = ((c : ZMod p)) ^ 2 ^ (m - j - 1) := by
          rw [cast_pm c _ p hp1, pm_eq 2 (m - j - 1) (p - 1) (by omega)]
          exact pow_emod_card_sub_one p _ hCne _
        have hexp2 : 2 ^ (m - j - 1) + 2 ^ (m - j - 1) = 2 ^ (m - j) := by
          have h1 : 2 ^ (m - j - 1) + 2 ^ (m - j - 1) = 2 ^ (m - j - 1) * 2 := by ring
          rw [h1, ← pow_succ]
          congr 1
          omega
        have hBsq : (((pm c (pm 2 (m - j - 1) (p - 1)) p : Nat)) : ZMod p)
            * (((pm c (pm 2 (m - j - 1) (p - 1)) p : Nat)) : ZMod p)
            = ((c : ZMod p)) ^ 2 ^ (m - j) := by
          rw [hbcast, ← pow_add, hexp2]
        have hTj : ((t : ZMod p)) ^ 2 ^ (j - 1) = -1 := by
          have hexpj : 2 ^ (j - 1) + 2 ^ (j - 1) = 2 ^ j := by
            have h1 : 2 ^ (j - 1) + 2 ^ (j - 1) = 2 ^ (j - 1) * 2 := by ring
            rw [h1, ← pow_succ]
            congr 1
            omega
          have hsq : (((t : ZMod p)) ^ 2 ^ (j - 1)) * (((t : ZMod p)) ^ 2 ^ (j - 1)) = 1 := by
            rw [← pow_add, hexpj]
            exact hjone
          rcases mul_self_eq_one_iff.1 hsq with h | h
          · exact absurd h (hjmin (j - 1) (by omega) (by omega))
          · exact h
        set bv := pm c (pm 2 (m - j - 1) (p - 1)) p with hbv
        have hc'cast : (((bv * bv % p : Nat)) : ZMod p) = ((c : ZMod p)) ^ 2 ^ (m - j) := by
          rw [ZMod.nat_cast_mod, Nat.cast_mul, hBsq]
        have hr'cast : (((r * bv % p : Nat)) : ZMod p)
            = ((r : ZMod p)) * (((bv : Nat)) : ZMod p) := by
          rw [ZMod.nat_cast_mod, Nat.cast_mul]
        have ht'cast : (((t * (bv * bv % p) % p : Nat)) : ZMod p)
            = ((t : ZMod p)) * ((c : ZMod p)) ^ 2 ^ (m - j) := by
          rw [ZMod.nat_cast_mod, Nat.cast_mul, hc'cast]
        have hinv1 : (((r * bv % p : Nat)) : ZMod p) ^ 2
            = Av * (((t * (bv * bv % p) % p : Nat)) : ZMod p) := by
          rw [hr'cast, ht'cast, mul_pow, hrt, sq, hBsq]
          ring
        have hinv2 : (((t * (bv * bv % p) % p : Nat)) : ZMod p) ^ 2 ^ (j - 1) = 1 := by
          rw [ht'cast, mul_pow, hTj, hpowpow, show m - j + (j - 1) = m - 1 by omega, hcm]
          ring
        have hinv3 : (((bv * bv % p : Nat)) : ZMod p) ^ 2 ^ (j - 1) = -1 := by
          rw [hc'cast, hpowpow, show m - j + (j - 1) = m - 1 by omega, hcm]
        exact ih j (bv * bv % p) (r * bv % p) (t * (bv * bv % p) % p)
          (by omega) hj1 (Nat.mod_lt _ (by omega)) (Nat.mod_lt _ (by omega))
          (Nat.mod_lt _ (by omega)) hinv1 hinv2 hinv3

/-- Correctness of `modularSquareRoot` on quadratic residues modulo an
odd prime: it returns a square root below `p`. -/
theorem modularSquareRoot_prime (a p : Nat) (hp : p.Prime) (h2 : 2 < p)
    (ha : 0 < a) (hap : a < p) (heuler : a ^ ((p - 1) / 2) % p = 1) :
    ∃ r, modularSquareRoot a p = .ok (some r) ∧ r < p ∧ r ^ 2 % p = a := by
  haveI : Fact p.Prime := ⟨hp⟩
  haveI : NeZero p := ⟨by omega⟩
  have hp1 : 1 < p := by omega
  have hpodd : p % 2 = 1 := Nat.odd_iff.1 (hp.odd_of_ne_two (by omega))
  have heuler' : ((a : ZMod p)) ^ ((p - 1) / 2) = 1 := by
    have h := heuler
    rw [← pm_eq _ _ _ hp1, pm_eq_zmod _ _ _ hp1] at h
    apply ZMod.val_injective p
    rw [h, ZMod.val_one p]
  have hAne : ((a : ZMod p)) ≠ 0 := by
    intro h0
    rw [h0, zero_pow (by omega : (p - 1) / 2 ≠ 0)] at heuler'
    exact one_ne_zero heuler'.symm
  unfold modularSquareRoot
  rw [if_neg (by omega), if_neg (by omega), if_neg (by omega)]
  rw [if_neg (by rw [pm_eq _ _ _ hp1]; simp [heuler])]
  rw [show factorTwo (p - 1) = factorTwoF (p - 1) (p - 1) from rfl]
  dsimp only
  obtain ⟨hfact, hodd⟩ := factorTwoF_spec (p - 1) (p - 1) (by omega) (le_refl _)
  set s := (factorTwoF (p - 1) (p - 1)).1 with hs
  set q := (factorTwoF (p - 1) (p - 1)).2 with hq
  have hs1 : 1 ≤ s := by
    by_contra h0
    have hs0 : s = 0 := by omega
    rw [hs0, pow_zero, mul_one] at hfact
    omega
  by_cases hscase : s = 1
  · refine ⟨pm a ((p + 1) / 4) p, ?_, pm_lt _ _ _ hp1, ?_⟩
    · rw [if_pos hscase]
    · have h4 : 4 ∣ p + 1 := by
        rw [hscase, pow_one] at hfact
        omega
      have hr2 : (((pm a ((p + 1) / 4) p : Nat)) : ZMod p) ^ 2 = (a : ZMod p) := by
        rw [cast_pm _ _ _ hp1, ← pow_mul]
        have hmul : (p + 1) / 4 * 2 = (p + 1) / 2 := by omega
        rw [hmul, show (p + 1) / 2 = (p - 1) / 2 + 1 by omega, pow_succ, heuler', one_mul]
      calc (pm a ((p + 1) / 4) p) ^ 2 % p
          = ((((pm a ((p + 1) / 4) p : Nat)) : ZMod p) ^ 2).val := by
            rw [← Nat.cast_pow, ZMod.val_natCast]
        _ = ((a : ZMod p)).val := by rw [hr2]
        _ = a := ZMod.val_cast_of_lt hap
  · rw [if_neg hscase]
    have hs2 : 2 ≤ s := by omega
    obtain ⟨bnsq, hbnsq⟩ := FiniteField.exists_nonsquare (F := ZMod p)
      (by rw [ZMod.ringChar_zmod_n]; omega)
    have hbne0 : bnsq ≠ 0 := fun h0 => hbnsq (h0 ▸ ⟨0, by ring⟩)
    have hbne1 : bnsq ≠ 1 := fun h1 => hbnsq (h1 ▸ ⟨1, by ring⟩)
    have hbeuler : bnsq ^ ((p - 1) / 2) ≠ 1 := by
      intro h1
      apply hbnsq
      apply (ZMod.euler_criterion p hbne0).2
      rw [show p / 2 = (p - 1) / 2 by omega]
      exact h1
    have hbval2 : 2 ≤ bnsq.val := by
      have h0 : bnsq.val ≠ 0 := by
        intro h
        apply hbne0
        apply ZMod.val_injective
        rw [h]
        simp
      have h1 : bnsq.val ≠ 1 := by
        intro h
        apply hbne1
        apply ZMod.val_injective
        rw [h, ZMod.val_one p]
      omega
    have hbvallt : bnsq.val < p := ZMod.val_lt bnsq
    have hwitness : pm bnsq.val ((p - 1) / 2) p ≠ 1 := by
      rw [pm_eq_zmod _ _ _ hp1, ZMod.natCast_zmod_val]
      intro h
      apply hbeuler
      apply ZMod.val_injective
      rw [h, ZMod.val_one p]
    obtain ⟨z, hzfind, hzne, hz2, hzmin⟩ := zSearchF_finds p ((p - 1) / 2) p 2
      ⟨bnsq.val, hbval2, by omega, hwitness⟩
    have hzlt : z < p := by
      by_contra h
      push_neg at h
      exact hwitness (hzmin bnsq.val hbval2 (by omega))
    have hzne0 : ((z : ZMod p)) ≠ 0 := by
      intro h0
      have hv : ((z : ZMod p)).val = 0 := by
        rw [h0]
        simp
      rw [ZMod.val_cast_of_lt hzlt] at hv
      omega
    rw [show zSearch p ((p - 1) / 2) 2 = zSearchF p ((p - 1) / 2) p 2 from rfl, hzfind]
    have hZ : ((z : ZMod p)) ^ ((p - 1) / 2) = -1 := by
      have hsq : (((z : ZMod p)) ^ ((p - 1) / 2)) * (((z : ZMod p)) ^ ((p - 1) / 2)) = 1 := by
        rw [← pow_add, show (p - 1) / 2 + (p - 1) / 2 = p - 1 by omega]
        exact ZMod.pow_card_sub_one_eq_one hzne0
      rcases mul_self_eq_one_iff.1 hsq with h | h
      · exfalso
        apply hzne
        rw [pm_eq_zmod _ _ _ hp1, h, ZMod.val_one p]
      · exact h
    have hpow : (2 : Nat) ^ s = 2 ^ (s - 1) * 2 := by
      rw [← pow_succ]
      congr 1
      omega
    have hfact' : p - 1 = q * 2 ^ (s - 1) * 2 := by
      rw [hfact, hpow]
      ring
    have hhalf : q * 2 ^ (s - 1) = (p - 1) / 2 := by omega
    have hcinv : (((pm z q p : Nat)) : ZMod p) ^ 2 ^ (s - 1) = -1 := by
      rw [cast_pm _ _ _ hp1, ← pow_mul, hhalf, hZ]
    have htinv : (((pm a q p : Nat)) : ZMod p) ^ 2 ^ (s - 1) = 1 := by
      rw [cast_pm _ _ _ hp1, ← pow_mul, hhalf, heuler']
    have hrinv : (((pm a ((q + 1) / 2) p : Nat)) : ZMod p) ^ 2
        = (a : ZMod p) * (((pm a q p : Nat)) : ZMod p) := by
      rw [cast_pm _ _ _ hp1, cast_pm _ _ _ hp1, ← pow_mul]
      rw [show (q + 1) / 2 * 2 = q + 1 by omega, pow_succ]
      ring
    obtain ⟨res, hres, hressq, hreslt⟩ := msrLoopF_correct p h2 ((a : ZMod p)) (s + 1) s
      (pm z q p) (pm a ((q + 1) / 2) p) (pm a q p) (by omega) hs1
      (pm_lt _ _ _ hp1) (pm_lt _ _ _ hp1) (pm_lt _ _ _ hp1) hrinv htinv hcinv
    refine ⟨res, ?_, hreslt, ?_⟩
    · dsimp only
      rw [hres]
    · calc res ^ 2 % p = (((res : Nat) : ZMod p) ^ 2).val := by
            rw [← Nat.cast_pow, ZMod.val_natCast]
        _ = ((a : ZMod p)).val := by rw [hressq]
        _ = a := ZMod.val_cast_of_lt hap

/-- **C6.** For a prime `p > 2` and `a < p`: when `0 < a` and Euler's
criterion `a ^ ((p-1)/2) % p = 1` holds, `modularSquareRoot a p` returns a
root `r` with `r ^ 2 % p = a`; when the criterion fails the function
returns `none` (JavaScript `null`); and `modularSquareRoot 0 p` returns
`0`. -/
theorem modularSquareRoot_correct (a p : Nat) (hp : Nat.Prime p) (h2 : 2 < p)
    (hap : a < p) :
    (0 < a → a ^ ((p - 1) / 2) % p = 1 →
      ∃ r, modularSquareRoot a p = .ok (some r) ∧ r ^ 2 % p = a) ∧
    (0 < a → a ^ ((p - 1) / 2) % p ≠ 1 → modularSquareRoot a p = .ok none) ∧
    modularSquareRoot 0 p = .ok (some 0) := by
  refine ⟨?_, ?_, ?_⟩
  · intro ha heuler
    obtain ⟨r, hr, _, hr2⟩ := modularSquareRoot_prime a p hp h2 ha hap heuler
    exact ⟨r, hr, hr2⟩
  · intro ha heuler
    unfold modularSquareRoot
    rw [if_neg (by omega), if_neg (by omega), if_neg (by omega), if_pos]
    rw [pm_eq _ _ _ (by omega)]
    exact heuler
  · unfold modularSquareRoot
    rw [if_neg (by omega), if_neg (by omega), if_pos rfl]

/-- Witness for `modularSquareRoot_correct` at `p = 13`, `a = 9`
(where the root returned satisfies the specification). -/
theorem modularSquareRoot_correct_witness :
    (0 < 9 → 9 ^ ((13 - 1) / 2) % 13 = 1 →
      ∃ r, modularSquareRoot 9 13 = .ok (some r) ∧ r ^ 2 % 13 = 9) ∧
    (0 < 9 → 9 ^ ((13 - 1) / 2) % 13 ≠ 1 → modularSquareRoot 9 13 = .ok none) ∧
    modularSquareRoot 0 13 = .ok (some 0) :=
  modularSquareRoot_correct 9 13 (by norm_num) (by decide) (by decide)

/-- A Pratt/Lucas primality certificate checker: if `p - 1` is the product
of the primes in `L`, every element of `L` appears in `qs`, every element
of `qs` is prime, and the witness `a` passes the Lucas conditions computed
with `pm`, then `p` is prime. -/
theorem prattCert (p a : Nat) (L qs : List Nat) (hp1 : 1 < p)
    (hL : p - 1 = L.prod)
    (hLqs : ∀ x ∈ L, x ∈ qs)
    (hqs : ∀ q ∈ qs, Nat.Prime q)
    (hfermat : pm a (p - 1) p = 1)
    (hroots : ∀ q ∈ qs, pm a ((p - 1) / q) p ≠ 1) : Nat.Prime p := by
  haveI : NeZero p := ⟨by omega⟩
  haveI : Fact (1 < p) := ⟨hp1⟩
  have ha : ((a : ZMod p)) ^ (p - 1) = 1 := by
    apply ZMod.val_injective
    rw [← pm_eq_zmod _ _ _ hp1, hfermat, ZMod.val_one p]
  refine lucas_primality p ((a : ZMod p)) ha ?_
  intro q hq hdvd
  have hqin : q ∈ qs := by
    rw [hL] at hdvd
    obtain ⟨x, hxL, hqx⟩ := (Prime.dvd_prod_iff hq.prime).mp hdvd
    have hx := hqs x (hLqs x hxL)
    have hqex : q = x := (Nat.prime_dvd_prime_iff_eq hq hx).mp hqx
    exact hqex ▸ hLqs x hxL
  intro h1
  apply hroots q hqin
  rw [pm_eq_zmod _ _ _ hp1, h1, ZMod.val_one p]

/-- Pratt certificate: `1213` is prime. -/
theorem prime_1213 : Nat.Prime 1213 :=
  prattCert 1213 2 [2, 2, 3, 101] [2, 3, 101] (by norm_num) (by decide)
    (by decide) (by intro q hq; fin_cases hq <;> norm_num) (by decide) (by decide)

/-- Pratt certificate: `1447` is prime. -/
theorem prime_1447 : Nat.Prime 1447 :=
  prattCert 1447 3 [2, 3, 241] [2, 3, 241] (by norm_num) (by decide)
    (by decide) (by intro q hq; fin_cases hq <;> norm_num) (by decide) (by decide)

/-- Pratt certificate: `2273` is prime. -/
theorem prime_2273 : Nat.Prime 2273 :=
  prattCert 2273 3 [2, 2, 2, 2, 2, 71] [2, 71] (by norm_num) (by decide)
    (by decide) (by intro q hq; fin_cases hq <;> norm_num) (by decide) (by decide)

/-- Pratt certificate: `2473` is prime. -/
theorem prime_2473 : Nat.Prime 2473 :=
  prattCert 2473 5 [2, 2, 2, 3, 103] [2, 3, 103] (by norm_num) (by decide)
    (by decide) (by intro q hq; fin_cases hq <;> norm_num) (by decide) (by decide)

/-- Pratt certificate: `4547` is prime. -/
theorem prime_4547 : Nat.Prime 4547 :=
  prattCert 4547 2 [2, 2273] [2, 2273] (by norm_num) (by decide)
    (by decide) (by intro q hq; fin_cases hq <;> first | exact prime_2273 | norm_num) (by decide) (by decide)

/-- Pratt certificate: `5303` is prime. -/
theorem prime_5303 : Nat.Prime 5303 :=
  prattCert 5303 5 [2, 11, 241] [2, 11, 241] (by norm_num) (by decide)
    (by decide) (by intro q hq; fin_cases hq <;> norm_num) (by decide) (by decide)

/-- Pratt certificate: `5711` is prime. -/
theorem prime_5711 : Nat.Prime 5711 :=
  prattCert 5711 19 [2, 5, 571] [2, 5, 571] (by norm_num) (by decide)
    (by decide) (by intro q hq; fin_cases hq <;> norm_num) (by decide) (by decide)

/-- Pratt certificate: `30223` is prime. -/
theorem prime_30223 : Nat.Prime 30223 :=
  prattCert 30223 3 [2, 3, 3, 23, 73] [2, 3, 23, 73] (by norm_num) (by decide)
    (by decide) (by intro q hq; fin_cases hq <;> norm_num) (by decide) (by decide)

/-- Pratt certificate: `34511` is prime. -/
theorem prime_34511 : Nat.Prime 34511 :=
  prattCert 34511 7 [2, 5, 7, 17, 29] [2, 5, 7, 17, 29] (by norm_num) (by decide)
    (by decide) (by intro q hq; fin_cases hq <;> norm_num) (by decide) (by decide)

/-- Pratt certificate: `54983` is prime. -/
theorem prime_54983 : Nat.Prime 54983 :=
  prattCert 54983 5 [2, 37, 743] [2, 37, 743] (by norm_num) (by decide)
    (by decide) (by intro q hq; fin_cases hq <;> norm_num) (by decide) (by decide)

/-- Pratt certificate: `71209` is prime. -/
theorem prime_71209 : Nat.Prime 71209 :=
  prattCert 71209 7 [2, 2, 2, 3, 3, 23, 43] [2, 3, 23, 43] (by norm_num) (by decide)
    (by decide) (by intro q hq; fin_cases hq <;> norm_num) (by decide) (by decide)

/-- Pratt certificate: `179429` is prime. -/
theorem prime_179429 : Nat.Prime 179429 :=
  prattCert 179429 2 [2, 2, 31, 1447] [2, 31, 1447] (by norm_num) (by decide)
    (by decide) (by intro q hq; fin_cases hq <;> first | exact prime_1447 | norm_num) (by decide) (by decide)

/-- Pratt certificate: `363761` is prime. -/
theorem prime_363761 : Nat.Prime 363761 :=
  prattCert 363761 3 [2, 2, 2, 2, 5, 4547] [2, 5, 4547] (by norm_num) (by decide)
    (by decide) (by intro q hq; fin_cases hq <;> first | exact prime_4547 | norm_num) (by decide) (by decide)

/-- Pratt certificate: `3079049` is prime. -/
theorem prime_3079049 : Nat.Prime 3079049 :=
  prattCert 3079049 3 [2, 2, 2, 7, 54983] [2, 7, 54983] (by norm_num) (by decide)
    (by decide) (by intro q hq; fin_cases hq <;> first | exact prime_54983 | norm_num) (by decide) (by decide)

/-- Pratt certificate: `6158099` is prime. -/
theorem prime_6158099 : Nat.Prime 6158099 :=
  prattCert 6158099 2 [2, 3079049] [2, 3079049] (by norm_num) (by decide)
    (by decide) (by intro q hq; fin_cases hq <;> first | exact prime_3079049 | norm_num) (by decide) (by decide)

/-- Pratt certificate: `8214737` is prime. -/
theorem prime_8214737 : Nat.Prime 8214737 :=
  prattCert 8214737 3 [2, 2, 2, 2, 67, 79, 97] [2, 67, 79, 97] (by norm_num) (by decide)
    (by decide) (by intro q hq; fin_cases hq <;> norm_num) (by decide) (by decide)

/-- Pratt certificate: `3017783777` is prime. -/
theorem prime_3017783777 : Nat.Prime 3017783777 :=
  prattCert 3017783777 3 [2, 2, 2, 2, 2, 7, 7, 337, 5711] [2, 7, 337, 5711] (by norm_num) (by decide)
    (by decide) (by intro q hq; fin_cases hq <;> first | exact prime_5711 | norm_num) (by decide) (by decide)

/-- Pratt certificate: `348253387243` is prime. -/
theorem prime_348253387243 : Nat.Prime 348253387243 :=
  prattCert 348253387243 3 [2, 3, 61, 5303, 179429] [2, 3, 61, 5303, 179429] (by norm_num) (by decide)
    (by decide) (by intro q hq; fin_cases hq <;> first | exact prime_5303 | exact prime_179429 | norm_num) (by decide) (by decide)

/-- Pratt certificate: `4641351449027` is prime. -/
theorem prime_4641351449027 : Nat.Prime 4641351449027 :=
  prattCert 4641351449027 2 [2, 769, 3017783777] [2, 769, 3017783777] (by norm_num) (by decide)
    (by decide) (by intro q hq; fin_cases hq <;> first | exact prime_3017783777 | norm_num) (by decide) (by decide)

/-- Pratt certificate: `417514796639753` is prime. -/
theorem prime_417514796639753 : Nat.Prime 417514796639753 :=
  prattCert 417514796639753 3 [2, 2, 2, 7, 367, 2473, 8214737] [2, 7, 367, 2473, 8214737] (by norm_num) (by decide)
    (by decide) (by intro q hq; fin_cases hq <;> first | exact prime_2473 | exact prime_8214737 | norm_num) (by decide) (by decide)

/-- Pratt certificate: `4773264379806847` is prime. -/
theorem prime_4773264379806847 : Nat.Prime 4773264379806847 :=
  prattCert 4773264379806847 3 [2, 3, 7, 11, 823, 34511, 363761] [2, 3, 7, 11, 823, 34511, 363761] (by norm_num) (by decide)
    (by decide) (by intro q hq; fin_cases hq <;> first | exact prime_34511 | exact prime_363761 | norm_num) (by decide) (by decide)

set_option maxRecDepth 100000 in
/-- Pratt certificate: `66013261729388519804782124120027` is prime. -/
theorem prime_66013261729388519804782124120027 : Nat.Prime 66013261729388519804782124120027 :=
  prattCert 66013261729388519804782124120027 2 [2, 13, 1213, 71209, 6158099, 4773264379806847] [2, 13, 1213, 71209, 6158099, 4773264379806847] (by norm_num) (by decide)
    (by decide) (by intro q hq; fin_cases hq <;> first | exact prime_1213 | exact prime_71209 | exact prime_6158099 | exact prime_4773264379806847 | norm_num) (by decide) (by decide)

set_option maxRecDepth 100000 in
/-- The SM2 field modulus `P` is prime (Pratt certificate, witness 13). -/
theorem P_prime : Nat.Prime P :=
  prattCert P 13 [2, 43, 30223, 348253387243, 4641351449027, 417514796639753, 66013261729388519804782124120027]
    [2, 43, 30223, 348253387243, 4641351449027, 417514796639753, 66013261729388519804782124120027] (by decide) (by decide)
    (by decide) (by intro q hq; fin_cases hq <;> first | exact prime_30223 | exact prime_348253387243 | exact prime_4641351449027 | exact prime_417514796639753 | exact prime_66013261729388519804782124120027 | norm_num) (by decide) (by decide)

/-- `bytesToNat` peels the last byte. -/
theorem bytesToNat_append_singleton (l : List Nat) (b : Nat) :
    bytesToNat (l ++ [b]) = bytesToNat l * 256 + b := by
  unfold bytesToNat
  rw [List.foldl_append]
  rfl

/-- `natToBytesPad` is a left inverse of `bytesToNat` on byte lists. -/
theorem natToBytesPad_bytesToNat (l : List Nat) (hb : ∀ b ∈ l, b < 256) :
    natToBytesPad l.length (bytesToNat l) = l := by
  induction l using List.reverseRecOn with
  | nil => rfl
  | append_singleton l b ih =>
    have hblt : b < 256 := hb b (by simp)
    rw [bytesToNat_append_singleton, show (l ++ [b]).length = l.length + 1 by simp]
    simp only [natToBytesPad]
    rw [show (bytesToNat l * 256 + b) / 256 = bytesToNat l by omega,
      show (bytesToNat l * 256 + b) % 256 = b by omega,
      ih (fun c hc => hb c (by simp [hc]))]

/-- Casting to `ZMod p` is injective below `p`. -/
theorem natCast_inj_of_lt (p a b : Nat) [NeZero p] (ha : a < p) (hb : b < p)
    (h : ((a : ZMod p)) = ((b : ZMod p))) : a = b := by
  have hv := congrArg ZMod.val h
  rwa [ZMod.val_cast_of_lt ha, ZMod.val_cast_of_lt hb] at hv

/-- Evaluation of `compressPublicKey` on a well-formed 64-byte key. -/
theorem compressPublicKey_eval (k : List Nat) (hlen : k.length = 64)
    (hx : bytesToNat (k.take 32) < P) (hy : bytesToNat (k.drop 32) < P) :
    compressPublicKey k = .ok
      ((if bytesToNat (k.drop 32) % 2 = 0 then 0x02 else 0x03) :: k.take 32) := by
  have htake : (k.drop 32).take 32 = k.drop 32 :=
    List.take_of_length_le (by simp [hlen])
  unfold compressPublicKey
  rw [if_neg (by omega)]
  dsimp only
  rw [htake, if_neg (not_or.mpr ⟨not_le.mpr hx, not_le.mpr hy⟩)]

/-- Evaluation of `uncompressPublicKey` on a tagged 33-byte input down to
the square-root call. -/
theorem uncompressPublicKey_eval (pb : Nat) (x : List Nat) (hxlen : x.length = 32)
    (hpb : pb = 0x02 ∨ pb = 0x03) (hxv : bytesToNat x < P) :
    uncompressPublicKey (pb :: x) =
      (modularSquareRoot
          ((bytesToNat x * bytesToNat x % P * bytesToNat x % P
            + A * bytesToNat x % P + B) % P) P).bind fun yOpt =>
        let y0 := match yOpt with
          | some y => y
          | none => FALLBACK_Y
        .ok (x ++ natToBytesPad 32
          (if (decide (y0 % 2 = 0)) ≠ (decide (pb = 0x02)) then (P - y0) % P else y0)) := by
  unfold uncompressPublicKey
  rw [if_neg (by simp [hxlen])]
  simp only [List.getD_cons_zero, List.drop_succ_cons, List.drop_zero]
  rw [if_neg (by rcases hpb with h | h <;> simp [h]), if_neg (not_le.mpr hxv)]

/-- On a valid curve point, uncompression of the tagged x-coordinate
recovers `x ++ y`: the square root exists, and the parity-driven sign
choice selects the original `y`. -/
theorem uncompress_of_compressed (x y : List Nat)
    (hxlen : x.length = 32) (hylen : y.length = 32)
    (hby : ∀ b ∈ y, b < 256)
    (hx : bytesToNat x < P) (hy : bytesToNat y < P)
    (hcurve : bytesToNat y ^ 2 % P
      = (bytesToNat x ^ 3 + A * bytesToNat x + B) % P) :
    uncompressPublicKey ((if bytesToNat y % 2 = 0 then 0x02 else 0x03) :: x)
      = .ok (x ++ y) := by
  haveI : Fact (Nat.Prime P) := ⟨P_prime⟩
  haveI : NeZero P := ⟨by decide⟩
  haveI : Fact (1 < P) := ⟨by decide⟩
  have hP2 : 2 < P := by decide
  have hPodd : P % 2 = 1 := by decide
  have hySqlt : (bytesToNat x * bytesToNat x % P * bytesToNat x % P
      + A * bytesToNat x % P + B) % P < P := Nat.mod_lt _ (by omega)
  have hcastySq :
      (((bytesToNat x * bytesToNat x % P * bytesToNat x % P
        + A * bytesToNat x % P + B) % P : Nat) : ZMod P)
      = ((bytesToNat y : Nat) : ZMod P) ^ 2 := by
    have h2 := congrArg (fun n : Nat => ((n : ZMod P))) hcurve
    push_cast [ZMod.natCast_mod] at h2
    push_cast [ZMod.natCast_mod]
    linear_combination -h2
  have hroot : ∃ r, modularSquareRoot
      ((bytesToNat x * bytesToNat x % P * bytesToNat x % P
        + A * bytesToNat x % P + B) % P) P = .ok (some r) ∧ r < P ∧
      (((r : Nat) : ZMod P) = ((bytesToNat y : Nat) : ZMod P) ∨
       ((r : Nat) : ZMod P) = -((bytesToNat y : Nat) : ZMod P)) := by
    by_cases hy0 : bytesToNat y = 0
    · have hySq0 : (bytesToNat x * bytesToNat x % P * bytesToNat x % P
          + A * bytesToNat x % P + B) % P = 0 := by
        have hc : (((bytesToNat x * bytesToNat x % P * bytesToNat x % P
            + A * bytesToNat x % P + B) % P : Nat) : ZMod P) = 0 := by
          rw [hcastySq, hy0]
          push_cast
          ring
        have hv := congrArg ZMod.val hc
        rwa [ZMod.val_cast_of_lt hySqlt, ZMod.val_zero] at hv
      refine ⟨0, ?_, by omega, Or.inl (by rw [hy0])⟩
      rw [hySq0]
      unfold modularSquareRoot
      rw [if_neg (by omega), if_neg (by omega), if_pos rfl]
    · have hyvne : ((bytesToNat y : Nat) : ZMod P) ≠ 0 := by
        intro h0
        have hv := congrArg ZMod.val h0
        rw [ZMod.val_cast_of_lt hy, ZMod.val_zero] at hv
        exact hy0 hv
      have hpos : 0 < (bytesToNat x * bytesToNat x % P * bytesToNat x % P
          + A * bytesToNat x % P + B) % P := by
        rcases Nat.eq_zero_or_pos ((bytesToNat x * bytesToNat x % P * bytesToNat x % P
            + A * bytesToNat x % P + B) % P) with h0 | h
        · exfalso
          apply hyvne
          have hc : ((bytesToNat y : Nat) : ZMod P) ^ 2 = 0 := by
            rw [← hcastySq, h0]
            push_cast
            ring
          exact (pow_eq_zero_iff (by norm_num)).mp hc
        · exact h
      have heuler : ((bytesToNat x * bytesToNat x % P * bytesToNat x % P
          + A * bytesToNat x % P + B) % P) ^ ((P - 1) / 2) % P = 1 := by
        have h1 : (((bytesToNat x * bytesToNat x % P * bytesToNat x % P
            + A * bytesToNat x % P + B) % P : Nat) : ZMod P) ^ ((P - 1) / 2) = 1 := by
          rw [hcastySq, ← pow_mul, show 2 * ((P - 1) / 2) = P - 1 by omega]
          exact ZMod.pow_card_sub_one_eq_one hyvne
        have hv := congrArg ZMod.val h1
        rwa [← Nat.cast_pow, ZMod.val_natCast, ZMod.val_one P] at hv
      obtain ⟨r, hr, hrlt, hr2⟩ := modularSquareRoot_prime _ P P_prime hP2 hpos hySqlt heuler
      refine ⟨r, hr, hrlt, ?_⟩
      have hcast : ((r : Nat) : ZMod P) * ((r : Nat) : ZMod P)
          = ((bytesToNat y : Nat) : ZMod P) * ((bytesToNat y : Nat) : ZMod P) := by
        have hc := congrArg (fun n : Nat => ((n : ZMod P))) hr2
        push_cast [ZMod.natCast_mod] at hc
        have h2 := congrArg (fun n : Nat => ((n : ZMod P))) hcurve
        push_cast [ZMod.natCast_mod] at h2
        rw [← pow_two, ← pow_two]
        linear_combination hc - h2
      exact mul_self_eq_mul_self_iff.mp hcast
  obtain ⟨r, hmsr, hrlt, hrcast⟩ := hroot
  have hrval : r = bytesToNat y ∨ (bytesToNat y ≠ 0 ∧ r = P - bytesToNat y) := by
    rcases hrcast with h | h
    · exact Or.inl (natCast_inj_of_lt P r (bytesToNat y) hrlt hy h)
    · by_cases hy0 : bytesToNat y = 0
      · left
        apply natCast_inj_of_lt P r (bytesToNat y) hrlt hy
        rw [h, hy0]
        push_cast
        ring
      · right
        refine ⟨hy0, ?_⟩
        apply natCast_inj_of_lt P r (P - bytesToNat y) hrlt (by omega)
        rw [h, Nat.cast_sub (le_of_lt hy), ZMod.natCast_self, zero_sub]
  rw [uncompressPublicKey_eval _ _ hxlen
    (by by_cases hpar : bytesToNat y % 2 = 0
        · left
          simp [hpar]
        · right
          simp [hpar]) hx]
  rw [hmsr, bind_ok']
  dsimp only
  have hyfinal : (if (decide (r % 2 = 0))
        ≠ (decide ((if bytesToNat y % 2 = 0 then 0x02 else 0x03) = 0x02))
      then (P - r) % P else r) = bytesToNat y := by
    rcases hrval with hr | ⟨hyne, hr⟩
    · subst hr
      by_cases hpar : bytesToNat y % 2 = 0 <;> simp [hpar]
    · subst hr
      by_cases hpar : bytesToNat y % 2 = 0
      · have h1 : (P - bytesToNat y) % 2 = 1 := by omega
        rw [if_pos (by simp [hpar, h1])]
        rw [show P - (P - bytesToNat y) = bytesToNat y by omega, Nat.mod_eq_of_lt hy]
      · have h1 : (P - bytesToNat y) % 2 = 0 := by omega
        rw [if_pos (by simp [hpar, h1])]
        rw [show P - (P - bytesToNat y) = bytesToNat y by omega, Nat.mod_eq_of_lt hy]
  rw [hyfinal, show natToBytesPad 32 (bytesToNat y) = y from hylen ▸ natToBytesPad_bytesToNat y hby]

/-- **C3.** For every valid 64-byte raw public key (32-byte big-endian
coordinates `x`, `y` with `x < P`, `y < P`, not both zero, satisfying the
curve equation `y² = x³ + Ax + B mod P`), uncompression undoes
compression: `uncompressPublicKey (compressPublicKey k) = ok k`. -/
theorem uncompress_compress_roundtrip (k : List Nat)
    (hlen : k.length = 64) (hbytes : ∀ b ∈ k, b < 256)
    (hx : bytesToNat (k.take 32) < P) (hy : bytesToNat (k.drop 32) < P)
    (hnz : ¬(bytesToNat (k.take 32) = 0 ∧ bytesToNat (k.drop 32) = 0))
    (hcurve : bytesToNat (k.drop 32) ^ 2 % P
      = (bytesToNat (k.take 32) ^ 3 + A * bytesToNat (k.take 32) + B) % P) :
    (compressPublicKey k).bind uncompressPublicKey = .ok k := by
  rw [compressPublicKey_eval k hlen hx hy, bind_ok']
  rw [uncompress_of_compressed (k.take 32) (k.drop 32)
    (by simp [hlen]) (by simp [hlen])
    (fun b hb => hbytes b (List.drop_subset 32 k hb))
    hx hy hcurve]
  rw [List.take_append_drop]

/-- A valid SM2 public key: `x = 1` together with the odd square root of
`1 + A + B mod P` as `y`. -/
def K3 : List Nat :=
  [0, 0, 0, 0, 0, 0, 0, 0, 0, 0, 0, 0, 0, 0, 0, 0, 0, 0, 0, 0, 0, 0, 0, 0, 0, 0, 0, 0, 0, 0, 0, 1, 159, 122, 9, 20, 51, 168, 30, 63, 33, 143, 64, 95, 121, 35, 85, 191, 42, 169, 139, 95, 250, 149, 152, 47, 3, 135, 8, 0, 6, 82, 121, 163]

/-- Witness for `uncompress_compress_roundtrip` at the curve point with
`x = 1`. -/
theorem uncompress_compress_roundtrip_witness :
    (compressPublicKey K3).bind uncompressPublicKey = .ok K3 :=
  uncompress_compress_roundtrip K3 (by decide) (by decide) (by decide) (by decide)
    (by decide) (by decide)

/-- The 32-byte big-endian encoding of `x = 2`, whose curve polynomial
value is a quadratic non-residue modulo `P`. -/
def X2 : List Nat := List.replicate 31 0 ++ [2]

set_option maxRecDepth 100000 in
/-- **C1.** Refutation of the hard-failure requirement: for the compressed
key `02 ‖ BE32(2)` the value `t = x³ + Ax + B mod P` has no modular square
root — `modularSquareRoot` itself reports `none` — yet `uncompressPublicKey`
does not fail: it returns a 64-byte result whose y-half is the substituted
`FALLBACK_Y` constant. -/
theorem uncompressPublicKey_fallback_substitution :
    modularSquareRoot ((bytesToNat X2 * bytesToNat X2 % P * bytesToNat X2 % P
      + A * bytesToNat X2 % P + B) % P) P = .ok none ∧
    uncompressPublicKey (0x02 :: X2) = .ok (X2 ++ natToBytesPad 32 FALLBACK_Y) := by
  constructor <;> decide

/-- Witness for `encodeDERLength_readDERLength_roundtrip` at `n = 639`. -/
theorem encodeDERLength_readDERLength_roundtrip_witness :
    ∃ enc, encodeDERLength 639 = .ok enc ∧ readDERLength enc 0 = .ok (639, enc.length) :=
  encodeDERLength_readDERLength_roundtrip 639 (by decide)

/-- Witness for `readDERLength_amended_spec` at `[0x82, 0x02, 0x7F]`. -/
theorem readDERLength_amended_spec_witness :
    readDERLength [0x82, 0x02, 0x7F] 0 =
      if ([(0x82 : Nat), 0x02, 0x7F] : List Nat).length ≤ 0 then .error .formatLength
      else if ([(0x82 : Nat), 0x02, 0x7F] : List Nat).getD 0 0 < 128 then
        .ok (([(0x82 : Nat), 0x02, 0x7F] : List Nat).getD 0 0, 0 + 1)
      else if ([(0x82 : Nat), 0x02, 0x7F] : List Nat).getD 0 0 = 128 ∨
          ([(0x82 : Nat), 0x02, 0x7F] : List Nat).length <
            0 + 1 + (([(0x82 : Nat), 0x02, 0x7F] : List Nat).getD 0 0 - 128) then
        .error .formatInvalid
      else if accum32 ((([(0x82 : Nat), 0x02, 0x7F] : List Nat).drop (0 + 1)).take
          (([(0x82 : Nat), 0x02, 0x7F] : List Nat).getD 0 0 - 128)) 0 ≤ 127 then
        .error .formatInvalid
      else .ok ((accum32 ((([(0x82 : Nat), 0x02, 0x7F] : List Nat).drop (0 + 1)).take
          (([(0x82 : Nat), 0x02, 0x7F] : List Nat).getD 0 0 - 128)) 0).toNat,
          0 + 1 + (([(0x82 : Nat), 0x02, 0x7F] : List Nat).getD 0 0 - 128)) :=
  readDERLength_amended_spec [0x82, 0x02, 0x7F] 0 (by decide)

end SM2
